import Mathlib

/-!
# Verification of `generator/genutils` (devfile API generator)

Shallow embedding of `json_schema.go` (`AddUnionOneOfConstraints`, `EditJSONSchema`),
`visitor.go` (`Visitor`, `visitorStruct.Visit`) and the verdict branch of `Test_API_200`
(`api-v200_test.go`), followed by the theorems that settle the claims of the
specification.

Modelling conventions
* `apiext.JSONSchemaProps` is restricted to the five fields the code reads or writes:
  `Type`, `Properties`, `Enum`, `OneOf`, `Required`.
* A Go `map[string]JSONSchemaProps` is an association list; lookup returns the first
  binding of a key, assignment replaces the first binding in place (or appends a new
  one), `delete` removes every binding of the key.
* An `apiext.JSON` enum value is its `Raw` bytes, as a `String`.
* `strcase.ToLowerCamel` is an external library function: every definition takes it as
  the parameter `camel`, and every general theorem holds for all `camel`.
  `ToLowerCamel` below is a concrete model used only to evaluate examples.
* A nil and an empty slice (or map) are both the empty list.
-/

namespace Genutils

/-! ## Data model -/

/-- The fields of `apiext.JSONSchemaProps` used by the generator utilities. -/
inductive JSONSchemaProps where
  | mk (type : String) (properties : List (String × JSONSchemaProps))
       (enum : List String) (oneOf : List JSONSchemaProps) (required : List String)

namespace JSONSchemaProps

/-- Field `Type`. -/
def type : JSONSchemaProps → String
  | mk t _ _ _ _ => t

/-- Field `Properties`. -/
def properties : JSONSchemaProps → List (String × JSONSchemaProps)
  | mk _ p _ _ _ => p

/-- Field `Enum` (raw JSON literals). -/
def enum : JSONSchemaProps → List String
  | mk _ _ e _ _ => e

/-- Field `OneOf`. -/
def oneOf : JSONSchemaProps → List JSONSchemaProps
  | mk _ _ _ o _ => o

/-- Field `Required`. -/
def required : JSONSchemaProps → List String
  | mk _ _ _ _ r => r

/-- Assignment `schema.Properties = p`. -/
def withProperties : JSONSchemaProps → List (String × JSONSchemaProps) → JSONSchemaProps
  | mk t _ e o r, p => mk t p e o r

/-- Assignment `schema.Enum = e`. -/
def withEnum : JSONSchemaProps → List String → JSONSchemaProps
  | mk t p _ o r, e => mk t p e o r

/-- Assignment `schema.OneOf = o`. -/
def withOneOf : JSONSchemaProps → List JSONSchemaProps → JSONSchemaProps
  | mk t p e _ r, o => mk t p e o r

/-- The zero value `apiext.JSONSchemaProps{}`. -/
def zero : JSONSchemaProps := mk "" [] [] [] []

/-- The composite literal `apiext.JSONSchemaProps{Required: []string{name}}`. -/
def requiring (name : String) : JSONSchemaProps := mk "" [] [] [] [name]

mutual
/-- Number of levels of the tree spanned by `Properties`. -/
def height : JSONSchemaProps → Nat
  | mk _ props _ _ _ => heightProps props + 1
/-- Largest height among the values of a property map. -/
def heightProps : List (String × JSONSchemaProps) → Nat
  | [] => 0
  | (_, c) :: rest => max (height c) (heightProps rest)
end

end JSONSchemaProps

/-- The field of `markers.FieldInfo` read by the code: `Name`. -/
structure FieldInfo where
  Name : String

/-! ## Go maps as association lists -/

/-- Map read `m[k]` with the comma-ok result. -/
def mapLookup {α : Type} : List (String × α) → String → Option α
  | [], _ => none
  | (k', v) :: rest, k => if k' = k then some v else mapLookup rest k

/-- Builtin `delete(m, k)`. -/
def mapDelete {α : Type} (k : String) (m : List (String × α)) : List (String × α) :=
  m.filter (fun e => decide (e.1 ≠ k))

/-- Map write `m[k] = v`. -/
def mapSet {α : Type} (k : String) (v : α) : List (String × α) → List (String × α)
  | [] => [(k, v)]
  | (k', v') :: rest => if k' = k then (k, v) :: rest else (k', v') :: mapSet k v rest

/-- The keys of a map. -/
def mapKeys {α : Type} (m : List (String × α)) : List String := m.map Prod.fst

/-! ## Library string functions -/

/-- Drops the leading double quotes of a character list. -/
def dropQuotes (cs : List Char) : List Char := cs.dropWhile (fun c => decide (c = Char.ofNat 34))

/-- The call `strings.Trim(s, "\"")`: removes all leading and trailing double quotes. -/
def trimQuotes (s : String) : String :=
  String.mk (dropQuotes (dropQuotes s.data).reverse).reverse

/-- One step of the scan of `ToLowerCamel`: `capNext` is the pending-capital flag,
`first` tells whether the character is at index 0. -/
def camelScan : Bool → Bool → List Char → List Char
  | _, _, [] => []
  | capNext, first, c :: cs =>
    if c.isUpper then
      (if !capNext && first then c.toLower else c) :: camelScan false false cs
    else if c.isLower then
      (if capNext then c.toUpper else c) :: camelScan false false cs
    else if c.isDigit then
      c :: camelScan true false cs
    else
      camelScan (c = '_' || c = ' ' || c = '-' || c = '.') false cs

/-- A model of `strcase.ToLowerCamel` on ASCII identifiers: the first letter is
lower-cased, separators `_`, space, `-`, `.` are dropped and capitalise the next letter. -/
def ToLowerCamel (s : String) : String :=
  String.mk (camelScan false true s.data)

/-! ## `json_schema.go`: the union rewriter, one node -/

/-- The loop `enumValueLoop` of `AddUnionOneOfConstraints` over the remaining enum
values, with the accumulators `oneOf` and `newEnumValues`. The result `none` is the
jump `continue discriminatorLoop` taken when an enum value names no property. -/
def enumValueLoop (camel : String → String) (fieldsToSkip : List String)
    (properties : List (String × JSONSchemaProps)) :
    List String → List JSONSchemaProps → List String →
      Option (List JSONSchemaProps × List String)
  | [], oneOf, newEnumValues => some (oneOf, newEnumValues)
  | enumValue :: rest, oneOf, newEnumValues =>
    let fieldName := trimQuotes enumValue
    let unionMemberProperty := camel fieldName
    match mapLookup properties unionMemberProperty with
    | none => none
    | some _ =>
      if fieldName ∈ fieldsToSkip then
        enumValueLoop camel fieldsToSkip properties rest oneOf newEnumValues
      else
        enumValueLoop camel fieldsToSkip properties rest
          (oneOf ++ [JSONSchemaProps.requiring unionMemberProperty])
          (newEnumValues ++ [enumValue])

/-- The final loop of a discriminator pass: `delete(schema.Properties, camel(toSkip))`
for every `toSkip`. -/
def deleteSkipped (camel : String → String) (fieldsToSkip : List String)
    (properties : List (String × JSONSchemaProps)) : List (String × JSONSchemaProps) :=
  fieldsToSkip.foldl (fun m toSkip => mapDelete (camel toSkip) m) properties

/-- The body of `discriminatorLoop` for one discriminator, on an object node. -/
def discriminatorPass (camel : String → String) (removeDiscriminators : Bool)
    (fieldsToSkip : List String) (schema : JSONSchemaProps) (discriminator : FieldInfo) :
    JSONSchemaProps :=
  let discriminatorPropertyName := camel discriminator.Name
  match mapLookup schema.properties discriminatorPropertyName with
  | none => schema
  | some discriminatorProp =>
    if discriminatorProp.enum.length = 0 then schema
    else
      match enumValueLoop camel fieldsToSkip schema.properties discriminatorProp.enum [] [] with
      | none => schema
      | some (oneOf, newEnumValues) =>
        let schema1 := schema.withOneOf oneOf
        let discriminatorProp1 := discriminatorProp.withEnum newEnumValues
        let properties1 :=
          if removeDiscriminators then mapDelete discriminatorPropertyName schema1.properties
          else mapSet discriminatorPropertyName discriminatorProp1 schema1.properties
        schema1.withProperties (deleteSkipped camel fieldsToSkip properties1)

/-- The loop `discriminatorLoop` over `unionDiscriminators`. -/
def discriminatorLoop (camel : String → String) (removeDiscriminators : Bool)
    (fieldsToSkip : List String) (unionDiscriminators : List FieldInfo)
    (schema : JSONSchemaProps) : JSONSchemaProps :=
  unionDiscriminators.foldl (discriminatorPass camel removeDiscriminators fieldsToSkip) schema

/-- The effect of `mainVisitor` on the node it is given (`none` is the nil pointer). -/
def mainVisitorEffect (camel : String → String) (unionDiscriminators : List FieldInfo)
    (removeDiscriminators : Bool) (fieldsToSkip : List String) :
    Option JSONSchemaProps → Option JSONSchemaProps
  | none => none
  | some schema =>
    if schema.type ≠ "object" then some schema
    else if schema.properties.length = 0 then some schema
    else some (discriminatorLoop camel removeDiscriminators fieldsToSkip unionDiscriminators schema)

/-! ## `visitor.go` -/

/-- Type `Visitor`: a non-nil function value. It receives the node pointer (`none` is
nil) and yields the node after its mutations, the named results `newVisitor`
(`none` is nil) and `stop`. -/
inductive Visitor where
  | mk (run : Option JSONSchemaProps → Option JSONSchemaProps × Option Visitor × Bool)

/-- Calls a visitor function. -/
def Visitor.run : Visitor → Option JSONSchemaProps →
    Option JSONSchemaProps × Option Visitor × Bool
  | Visitor.mk f => f

/-- Type `visitorStruct`. -/
structure visitorStruct where
  VisitFunc : Visitor

/-- Method `visitorStruct.Visit`: the node after the call and the returned
`crd.SchemaVisitor` (`none` is nil). -/
def visitorStruct.Visit (v : visitorStruct) (schema : Option JSONSchemaProps) :
    Option JSONSchemaProps × Option visitorStruct :=
  match v.VisitFunc.run schema with
  | (schema1, newVisitor, stop) =>
    if stop then (schema1, none)
    else
      match newVisitor with
      | none => (schema1, some v)
      | some newVisitor1 => (schema1, some (visitorStruct.mk newVisitor1))

/-- The closure `mainVisitor` of `AddUnionOneOfConstraints`: both named results keep
their zero values on every path. -/
def mainVisitor (camel : String → String) (unionDiscriminators : List FieldInfo)
    (removeDiscriminators : Bool) (fieldsToSkip : List String) : Visitor :=
  Visitor.mk (fun schema =>
    (mainVisitorEffect camel unionDiscriminators removeDiscriminators fieldsToSkip schema,
      none, false))

/-! ## The tree walker -/

/-- Applies a fallible function to every value of a property map. -/
def walkMap (f : JSONSchemaProps → Option JSONSchemaProps) :
    List (String × JSONSchemaProps) → Option (List (String × JSONSchemaProps))
  | [] => some []
  | (k, c) :: rest =>
    match f c, walkMap f rest with
    | some c1, some rest1 => some ((k, c1) :: rest1)
    | _, _ => none

/-- Modelled from the spec: the walk of `crd.EditSchema` (package controller-tools,
outside the sources) below a non-nil node, as the Tree Walker of section 4.1: the
visitor is invoked on the node; a nil result stops the branch, otherwise every value
of `Properties` is walked with the returned visitor. `fuel` bounds the depth and
`none` means that it ran out. -/
def walkSchema : Nat → visitorStruct → JSONSchemaProps → Option JSONSchemaProps
  | 0, _, _ => none
  | fuel + 1, visitor, schema =>
    match visitor.Visit (some schema) with
    | (schema1, subVisitor) =>
      let node := schema1.getD schema
      match subVisitor with
      | none => some node
      | some sub => (walkMap (walkSchema fuel sub) node.properties).map node.withProperties

/-- Modelled from the spec: `crd.EditSchema`; an absent root makes the traversal a
no-op. -/
def EditSchema (fuel : Nat) (schema : Option JSONSchemaProps) (visitor : visitorStruct) :
    Option (Option JSONSchemaProps) :=
  match schema with
  | none => some none
  | some root => (walkSchema fuel visitor root).map some

/-- Function `EditJSONSchema`. -/
def EditJSONSchema (fuel : Nat) (jsonSchema : Option JSONSchemaProps) (visitor : Visitor) :
    Option (Option JSONSchemaProps) :=
  EditSchema fuel jsonSchema (visitorStruct.mk visitor)

/-- Function `AddUnionOneOfConstraints`: the tree after the rewrite. -/
def AddUnionOneOfConstraints (camel : String → String) (fuel : Nat)
    (jsonSchema : Option JSONSchemaProps) (unionDiscriminators : List FieldInfo)
    (removeDiscriminators : Bool) (fieldsToSkip : List String) :
    Option (Option JSONSchemaProps) :=
  EditJSONSchema fuel jsonSchema
    (mainVisitor camel unionDiscriminators removeDiscriminators fieldsToSkip)


/-! ## `api-v200_test.go`: the verdict of one test -/

/-- Substring test on character lists: some suffix of the first list starts with the
second. -/
def containsChars : List Char → List Char → Bool
  | [], substr => substr.isPrefixOf []
  | c :: cs, substr => substr.isPrefixOf (c :: cs) || containsChars cs substr

/-- The call `strings.Contains(s, substr)`. -/
def stringsContains (s substr : String) : Bool := containsChars s.data substr.data

/-- The verdict branch of `Test_API_200` (the statement `if err = schema.Validate(...)`
and its `else` chain) for one enabled test whose document was assembled and converted.
`err` is the message of the validation error (`none` is a nil error). The result is the
counter `passTests` after the branch and whether `t.Errorf` was called. -/
def Test_API_200_verdict (passTests : Nat) (err : Option String) (ExpectOutcome : String) :
    Nat × Bool :=
  match err with
  | some message =>
    if ExpectOutcome = "PASS" then (passTests, true)
    else if ExpectOutcome = "" then (passTests, true)
    else if !stringsContains message ExpectOutcome then (passTests, true)
    else (passTests + 1, false)
  | none =>
    if ExpectOutcome = "" then (passTests, true)
    else if ExpectOutcome ≠ "PASS" then (passTests, true)
    else (passTests + 1, false)

/-! ## Auxiliary notions used to state the properties -/

/-- An enum value resolves when, unquoted and lower-camel-cased, it is a key of the map. -/
def resolves (camel : String → String) (properties : List (String × JSONSchemaProps))
    (enumValue : String) : Bool :=
  (mapLookup properties (camel (trimQuotes enumValue))).isSome

/-- The enum values whose unquoted form is not in the exclusion list, in order. -/
def survivors (fieldsToSkip : List String) (enumValues : List String) : List String :=
  enumValues.filter (fun v => decide (trimQuotes v ∉ fieldsToSkip))

/-- One `Required`-only constraint per enum value, in order. -/
def oneOfFor (camel : String → String) (enumValues : List String) : List JSONSchemaProps :=
  enumValues.map (fun v => JSONSchemaProps.requiring (camel (trimQuotes v)))

/-- The rewrite of a discriminator is applied at a node (neither skipped nor abandoned):
its property exists, has a non-empty enum, and every enum value resolves. -/
def rewriteApplies (camel : String → String) (schema : JSONSchemaProps)
    (discriminator : FieldInfo) : Bool :=
  match mapLookup schema.properties (camel discriminator.Name) with
  | none => false
  | some discriminatorProp =>
    !discriminatorProp.enum.isEmpty &&
      discriminatorProp.enum.all (resolves camel schema.properties)

/-- On a node none of whose keys is an excluded name, a pass replaces the OneOf by this
list and changes nothing else. -/
def settledStep (camel : String → String) (props : List (String × JSONSchemaProps))
    (o : List JSONSchemaProps) (d : FieldInfo) : List JSONSchemaProps :=
  match mapLookup props (camel d.Name) with
  | none => o
  | some p =>
    if !p.enum.isEmpty && p.enum.all (resolves camel props) then oneOfFor camel p.enum else o

/-- The OneOf after the passes of all discriminators on such a node. -/
def settledOneOf (camel : String → String) (props : List (String × JSONSchemaProps))
    (ds : List FieldInfo) (o : List JSONSchemaProps) : List JSONSchemaProps :=
  ds.foldl (settledStep camel props) o

/-- The effect of `mainVisitor` on a non-nil node. -/
def rewriteNode (camel : String → String) (unionDiscriminators : List FieldInfo)
    (removeDiscriminators : Bool) (fieldsToSkip : List String) (schema : JSONSchemaProps) :
    JSONSchemaProps :=
  if schema.type ≠ "object" then schema
  else if schema.properties.length = 0 then schema
  else discriminatorLoop camel removeDiscriminators fieldsToSkip unionDiscriminators schema

/-- Applies a function to every value of a property map. -/
def mapValues (g : JSONSchemaProps → JSONSchemaProps) (m : List (String × JSONSchemaProps)) :
    List (String × JSONSchemaProps) :=
  m.map (fun e => (e.1, g e.2))

/-- Replaces every child of a node by its image. -/
def liftChildren (g : JSONSchemaProps → JSONSchemaProps) (x : JSONSchemaProps) :
    JSONSchemaProps :=
  x.withProperties (mapValues g x.properties)

/-- Every value of the map has height at most `n`. -/
def heightBounded (n : Nat) (m : List (String × JSONSchemaProps)) : Prop :=
  ∀ e ∈ m, e.2.height ≤ n

/-- The property of a discriminator is absent from the node or has an empty enum. -/
def inertKey (x : JSONSchemaProps) (k : String) : Prop :=
  mapLookup x.properties k = none ∨ ∃ p, mapLookup x.properties k = some p ∧ p.enum = []

/-- The key `k` is the property name of a discriminator of the list whose rewrite was
applied, judged on the node as it was when that discriminator was processed. -/
def rewrittenAt (camel : String → String) (rm : Bool) (skip : List String)
    (ds : List FieldInfo) (x : JSONSchemaProps) (k : String) : Prop :=
  ∃ (i : Nat) (d : FieldInfo), ds[i]? = some d ∧
    rewriteApplies camel (discriminatorLoop camel rm skip (ds.take i) x) d = true ∧
    k = camel d.Name

/-! ## Example nodes -/

/-- A union member property: a leaf of type string. -/
def memberProp : JSONSchemaProps := JSONSchemaProps.mk "string" [] [] [] []

/-- A discriminator property: a string leaf with the given enum. -/
def tagProp (enumValues : List String) : JSONSchemaProps :=
  JSONSchemaProps.mk "string" [] enumValues [] []

/-- The object node `{kind: {enum: ...}, foo: {...}, bar: {...}}` of the scenarios. -/
def kindUnion (enumValues : List String) : JSONSchemaProps :=
  JSONSchemaProps.mk "object"
    [("kind", tagProp enumValues), ("foo", memberProp), ("bar", memberProp)] [] [] []

/-- The discriminator `kind`. -/
def kindField : FieldInfo := FieldInfo.mk "kind"

/-- An object node with the properties `foo` and `bar` and no discriminator. -/
def plainNode : JSONSchemaProps :=
  JSONSchemaProps.mk "object" [("foo", memberProp), ("bar", memberProp)] [] [] []

/-- A visitor that stops the traversal although it returns a next visitor. -/
def stoppingVisitor : Visitor :=
  Visitor.mk (fun schema => (schema, some (mainVisitor ToLowerCamel [] false []), true))

/-- A visitor that hands the levels below over to the union rewriter for `kind`. -/
def delegatingVisitor : Visitor :=
  Visitor.mk (fun schema => (schema, some (mainVisitor ToLowerCamel [kindField] false []), false))

/-- The two-level tree of the nested-union example: the member `foo` of the outer union
is itself a union over `foo` and `bar`. -/
def nestedUnion : JSONSchemaProps :=
  JSONSchemaProps.mk "object"
    [("kind", tagProp ["\"foo\"", "\"bar\""]),
     ("foo", kindUnion ["\"foo\"", "\"bar\""]),
     ("bar", memberProp)] [] [] []

/-- A node of type string that nevertheless has a property `kind` with an enum. -/
def stringNode : JSONSchemaProps :=
  JSONSchemaProps.mk "string"
    [("kind", tagProp ["\"foo\""]), ("foo", memberProp)] [] [] []

/-- An object node with the two discriminators `kind` (over `foo`, `bar`) and `mode`
(over `bar`, `baz`), which share the member `bar`. -/
def twoTags : JSONSchemaProps :=
  JSONSchemaProps.mk "object"
    [("kind", tagProp ["\"foo\"", "\"bar\""]), ("mode", tagProp ["\"bar\"", "\"baz\""]),
     ("foo", memberProp), ("bar", memberProp), ("baz", memberProp)] [] [] []

/-! ## Basic lemmas -/

section Accessors
variable (s : JSONSchemaProps) (p : List (String × JSONSchemaProps)) (e : List String)
  (o : List JSONSchemaProps)

@[simp] theorem type_withProperties : (s.withProperties p).type = s.type := by cases s; rfl
@[simp] theorem type_withOneOf : (s.withOneOf o).type = s.type := by cases s; rfl
@[simp] theorem type_withEnum : (s.withEnum e).type = s.type := by cases s; rfl
@[simp] theorem properties_withProperties : (s.withProperties p).properties = p := by
  cases s; rfl
@[simp] theorem properties_withOneOf : (s.withOneOf o).properties = s.properties := by
  cases s; rfl
@[simp] theorem properties_withEnum : (s.withEnum e).properties = s.properties := by
  cases s; rfl
@[simp] theorem enum_withProperties : (s.withProperties p).enum = s.enum := by cases s; rfl
@[simp] theorem enum_withOneOf : (s.withOneOf o).enum = s.enum := by cases s; rfl
@[simp] theorem enum_withEnum : (s.withEnum e).enum = e := by cases s; rfl
@[simp] theorem oneOf_withProperties : (s.withProperties p).oneOf = s.oneOf := by cases s; rfl
@[simp] theorem oneOf_withOneOf : (s.withOneOf o).oneOf = o := by cases s; rfl
@[simp] theorem oneOf_withEnum : (s.withEnum e).oneOf = s.oneOf := by cases s; rfl
@[simp] theorem required_withProperties : (s.withProperties p).required = s.required := by
  cases s; rfl
@[simp] theorem required_withOneOf : (s.withOneOf o).required = s.required := by cases s; rfl
@[simp] theorem required_withEnum : (s.withEnum e).required = s.required := by cases s; rfl
@[simp] theorem withEnum_enum : s.withEnum s.enum = s := by cases s; rfl
@[simp] theorem withProperties_properties : s.withProperties s.properties = s := by
  cases s; rfl
@[simp] theorem withOneOf_oneOf : s.withOneOf s.oneOf = s := by cases s; rfl

end Accessors

theorem enumValueLoop_some (camel : String → String) (skip : List String)
    (props : List (String × JSONSchemaProps)) (es : List String) :
    ∀ (oo : List JSONSchemaProps) (ne : List String),
      (∀ v ∈ es, resolves camel props v = true) →
      enumValueLoop camel skip props es oo ne =
        some (oo ++ oneOfFor camel (survivors skip es), ne ++ survivors skip es) := by
  induction es with
  | nil => intro oo ne _; simp [enumValueLoop, survivors, oneOfFor]
  | cons v rest ih =>
    intro oo ne h
    have hv : resolves camel props v = true := h v (List.mem_cons_self _ _)
    have hrest : ∀ w ∈ rest, resolves camel props w = true :=
      fun w hw => h w (List.mem_cons_of_mem _ hw)
    unfold resolves at hv
    obtain ⟨q, hq⟩ := Option.isSome_iff_exists.mp hv
    by_cases hs : trimQuotes v ∈ skip
    · simp [enumValueLoop, hq, hs, ih oo ne hrest, survivors]
    · simp [enumValueLoop, hq, hs, ih _ _ hrest, survivors, oneOfFor]

theorem enumValueLoop_none (camel : String → String) (skip : List String)
    (props : List (String × JSONSchemaProps)) (es : List String) :
    ∀ (oo : List JSONSchemaProps) (ne : List String),
      (∃ v ∈ es, resolves camel props v = false) →
      enumValueLoop camel skip props es oo ne = none := by
  induction es with
  | nil => intro oo ne h; obtain ⟨v, hv, _⟩ := h; cases hv
  | cons v rest ih =>
    intro oo ne h
    cases hq : mapLookup props (camel (trimQuotes v)) with
    | none => simp [enumValueLoop, hq]
    | some q =>
      have hrest : ∃ w ∈ rest, resolves camel props w = false := by
        obtain ⟨w, hw, hwr⟩ := h
        rcases List.mem_cons.mp hw with rfl | hw1
        · simp [resolves, hq] at hwr
        · exact ⟨w, hw1, hwr⟩
      by_cases hs : trimQuotes v ∈ skip
      · simp [enumValueLoop, hq, hs, ih oo ne hrest]
      · simp [enumValueLoop, hq, hs, ih _ _ hrest]

/-- A pass whose rewrite is applied, in closed form. -/
theorem discriminatorPass_applied (camel : String → String) (rm : Bool) (skip : List String)
    (schema : JSONSchemaProps) (d : FieldInfo) (p : JSONSchemaProps)
    (hp : mapLookup schema.properties (camel d.Name) = some p)
    (hne : p.enum ≠ [])
    (hres : ∀ v ∈ p.enum, resolves camel schema.properties v = true) :
    discriminatorPass camel rm skip schema d =
      (schema.withOneOf (oneOfFor camel (survivors skip p.enum))).withProperties
        (deleteSkipped camel skip
          (if rm then mapDelete (camel d.Name) schema.properties
           else mapSet (camel d.Name) (p.withEnum (survivors skip p.enum))
             schema.properties)) := by
  have hlen : p.enum.length ≠ 0 := by simpa using hne
  simp [discriminatorPass, hp, hlen, enumValueLoop_some camel skip _ _ [] [] hres]

/-- A pass whose rewrite is not applied leaves the node as it was. -/
theorem discriminatorPass_not_applied (camel : String → String) (rm : Bool)
    (skip : List String) (schema : JSONSchemaProps) (d : FieldInfo)
    (h : rewriteApplies camel schema d = false) :
    discriminatorPass camel rm skip schema d = schema := by
  unfold rewriteApplies at h
  cases hp : mapLookup schema.properties (camel d.Name) with
  | none => simp [discriminatorPass, hp]
  | some p =>
    rw [hp] at h
    by_cases hne : p.enum = []
    · simp [discriminatorPass, hp, hne]
    · have hlen : p.enum.length ≠ 0 := by simpa using hne
      have hex : ∃ v ∈ p.enum, resolves camel schema.properties v = false := by
        simpa [hne] using h
      simp [discriminatorPass, hp, hne, enumValueLoop_none camel skip _ _ [] [] hex]

theorem mapSet_of_lookup {α : Type} (k : String) (v : α) (m : List (String × α))
    (h : mapLookup m k = some v) : mapSet k v m = m := by
  induction m with
  | nil => simp [mapLookup] at h
  | cons e rest ih =>
    obtain ⟨k1, v1⟩ := e
    by_cases hk : k1 = k
    · subst hk
      simp [mapLookup] at h
      simp [mapSet, h]
    · simp [mapLookup, hk] at h
      simp [mapSet, hk, ih h]

theorem survivors_nil_skip (es : List String) : survivors [] es = es := by
  simp [survivors]

theorem mapLookup_mapDelete {α : Type} (k k1 : String) (m : List (String × α)) :
    mapLookup (mapDelete k m) k1 = if k1 = k then none else mapLookup m k1 := by
  induction m with
  | nil => simp [mapDelete, mapLookup]
  | cons e rest ih =>
    obtain ⟨k2, v2⟩ := e
    have hcons : mapDelete k ((k2, v2) :: rest) =
        if k2 = k then mapDelete k rest else (k2, v2) :: mapDelete k rest := by
      by_cases h2 : k2 = k <;> simp [mapDelete, List.filter_cons, h2]
    rw [hcons]
    by_cases h2 : k2 = k
    · subst h2
      by_cases h1 : k1 = k2
      · subst h1
        simpa using ih
      · have h1' : ¬ k2 = k1 := fun h => h1 h.symm
        simp [ih, h1, h1', mapLookup]
    · by_cases h1 : k1 = k
      · subst h1
        simp [h2, mapLookup, ih]
      · simp [h2, mapLookup, ih, h1]

theorem mapLookup_deleteSkipped (camel : String → String) (skip : List String) :
    ∀ (m : List (String × JSONSchemaProps)) (k : String),
      mapLookup (deleteSkipped camel skip m) k =
        if k ∈ skip.map camel then none else mapLookup m k := by
  induction skip with
  | nil => intro m k; simp [deleteSkipped]
  | cons s rest ih =>
    intro m k
    have hstep : deleteSkipped camel (s :: rest) m =
        deleteSkipped camel rest (mapDelete (camel s) m) := by
      simp [deleteSkipped]
    rw [hstep, ih, mapLookup_mapDelete]
    by_cases h1 : k = camel s
    · simp [h1]
    · by_cases h2 : k ∈ rest.map camel
      · simp [h2]
      · simp [h1, h2]

theorem mapLookup_mapSet {α : Type} (k k1 : String) (v : α) (m : List (String × α)) :
    mapLookup (mapSet k v m) k1 = if k1 = k then some v else mapLookup m k1 := by
  induction m with
  | nil =>
    by_cases h1 : k1 = k
    · simp [mapSet, mapLookup, h1]
    · have h1' : ¬ k = k1 := fun h => h1 h.symm
      simp [mapSet, mapLookup, h1, h1']
  | cons e rest ih =>
    obtain ⟨k2, v2⟩ := e
    by_cases h2 : k2 = k
    · subst h2
      by_cases h1 : k1 = k2
      · simp [mapSet, mapLookup, h1]
      · have h1' : ¬ k2 = k1 := fun h => h1 h.symm
        simp [mapSet, mapLookup, h1, h1']
    · by_cases h1 : k1 = k
      · subst h1
        simp [mapSet, mapLookup, h2, ih]
      · simp [mapSet, mapLookup, h2, ih, h1]

theorem mem_mapKeys_iff {α : Type} (k : String) (m : List (String × α)) :
    k ∈ mapKeys m ↔ (mapLookup m k).isSome = true := by
  induction m with
  | nil => simp [mapKeys, mapLookup]
  | cons e rest ih =>
    obtain ⟨k2, v2⟩ := e
    unfold mapKeys at ih ⊢
    by_cases h2 : k2 = k
    · simp [mapLookup, h2]
    · have h2' : ¬ k = k2 := fun h => h2 h.symm
      simp [mapLookup, h2, h2', ih]

theorem mem_survivors (skip : List String) (es : List String) (v : String) :
    v ∈ survivors skip es ↔ v ∈ es ∧ trimQuotes v ∉ skip := by
  simp [survivors]

theorem rewriteApplies_iff (camel : String → String) (schema : JSONSchemaProps)
    (d : FieldInfo) :
    rewriteApplies camel schema d = true ↔
      ∃ p, mapLookup schema.properties (camel d.Name) = some p ∧ p.enum ≠ [] ∧
        ∀ v ∈ p.enum, resolves camel schema.properties v = true := by
  unfold rewriteApplies
  cases hp : mapLookup schema.properties (camel d.Name) with
  | none => simp
  | some p => simp [List.isEmpty_iff]

theorem discriminatorLoop_append (camel : String → String) (rm : Bool) (skip : List String)
    (ds1 ds2 : List FieldInfo) (schema : JSONSchemaProps) :
    discriminatorLoop camel rm skip (ds1 ++ ds2) schema =
      discriminatorLoop camel rm skip ds2 (discriminatorLoop camel rm skip ds1 schema) := by
  simp [discriminatorLoop, List.foldl_append]

theorem discriminatorLoop_snoc (camel : String → String) (rm : Bool) (skip : List String)
    (ds : List FieldInfo) (d : FieldInfo) (schema : JSONSchemaProps) :
    discriminatorLoop camel rm skip (ds ++ [d]) schema =
      discriminatorPass camel rm skip (discriminatorLoop camel rm skip ds schema) d := by
  simp [discriminatorLoop, List.foldl_append]

/-! ## Idempotence of the rewrite: lemmas -/

theorem rewriteApplies_false_of_shrink (camel : String → String) (x y : JSONSchemaProps)
    (d : FieldInfo)
    (hkeys : ∀ k, mapLookup x.properties k = none → mapLookup y.properties k = none)
    (hd : mapLookup y.properties (camel d.Name) = none ∨
      mapLookup y.properties (camel d.Name) = mapLookup x.properties (camel d.Name))
    (h : rewriteApplies camel x d = false) : rewriteApplies camel y d = false := by
  cases hy : rewriteApplies camel y d with
  | false => rfl
  | true =>
    exfalso
    obtain ⟨p, hp, hne, hres⟩ := (rewriteApplies_iff camel y d).mp hy
    have hxp : mapLookup x.properties (camel d.Name) = some p := by
      rcases hd with hd | hd
      · rw [hd] at hp; cases hp
      · rw [← hd]; exact hp
    have hx : rewriteApplies camel x d = true := by
      rw [rewriteApplies_iff]
      refine ⟨p, hxp, hne, ?_⟩
      intro v hv
      have hvy := hres v hv
      unfold resolves at hvy ⊢
      cases hxv : mapLookup x.properties (camel (trimQuotes v)) with
      | none => rw [hkeys _ hxv] at hvy; cases hvy
      | some q => rfl
    rw [h] at hx
    cases hx

theorem discriminatorLoop_of_none_applied (camel : String → String) (rm : Bool)
    (skip : List String) (ds : List FieldInfo) (x : JSONSchemaProps)
    (h : ∀ d ∈ ds, rewriteApplies camel x d = false) :
    discriminatorLoop camel rm skip ds x = x := by
  induction ds with
  | nil => rfl
  | cons d rest ih =>
    have hd := h d (List.mem_cons_self _ _)
    have hstep : discriminatorLoop camel rm skip (d :: rest) x =
        discriminatorLoop camel rm skip rest (discriminatorPass camel rm skip x d) := by
      simp [discriminatorLoop]
    rw [hstep, discriminatorPass_not_applied camel rm skip x d hd]
    exact ih (fun d1 hd1 => h d1 (List.mem_cons_of_mem _ hd1))

theorem discriminatorPass_remove_shrink (camel : String → String) (skip : List String)
    (x : JSONSchemaProps) (d : FieldInfo) (k : String) :
    mapLookup (discriminatorPass camel true skip x d).properties k = none ∨
      mapLookup (discriminatorPass camel true skip x d).properties k =
        mapLookup x.properties k := by
  cases happ : rewriteApplies camel x d with
  | false => right; rw [discriminatorPass_not_applied camel true skip x d happ]
  | true =>
    obtain ⟨p, hp, hne, hres⟩ := (rewriteApplies_iff camel x d).mp happ
    rw [discriminatorPass_applied camel true skip x d p hp hne hres]
    simp only [properties_withProperties, mapLookup_deleteSkipped, mapLookup_mapDelete,
      if_true, properties_withOneOf]
    by_cases h1 : k ∈ skip.map camel
    · left; simp [h1]
    · by_cases h2 : k = camel d.Name
      · left; simp [h2]
      · right; simp [h1, h2]

theorem discriminatorLoop_remove_shrink (camel : String → String) (skip : List String)
    (ds : List FieldInfo) :
    ∀ (x : JSONSchemaProps) (k : String),
      mapLookup (discriminatorLoop camel true skip ds x).properties k = none ∨
        mapLookup (discriminatorLoop camel true skip ds x).properties k =
          mapLookup x.properties k := by
  induction ds with
  | nil => intro x k; right; rfl
  | cons d rest ih =>
    intro x k
    have hstep : discriminatorLoop camel true skip (d :: rest) x =
        discriminatorLoop camel true skip rest (discriminatorPass camel true skip x d) := by
      simp [discriminatorLoop]
    rw [hstep]
    rcases ih (discriminatorPass camel true skip x d) k with h | h
    · left; exact h
    · rcases discriminatorPass_remove_shrink camel skip x d k with h1 | h1
      · left; rw [h, h1]
      · right; rw [h, h1]

theorem rewriteApplies_after_remove_pass (camel : String → String) (skip : List String)
    (x : JSONSchemaProps) (d : FieldInfo) :
    rewriteApplies camel (discriminatorPass camel true skip x d) d = false := by
  cases happ : rewriteApplies camel x d with
  | false => rw [discriminatorPass_not_applied camel true skip x d happ]; exact happ
  | true =>
    obtain ⟨p, hp, hne, hres⟩ := (rewriteApplies_iff camel x d).mp happ
    have hnone : mapLookup (discriminatorPass camel true skip x d).properties
        (camel d.Name) = none := by
      rw [discriminatorPass_applied camel true skip x d p hp hne hres]
      simp [mapLookup_deleteSkipped, mapLookup_mapDelete]
    simp [rewriteApplies, hnone]

theorem none_applies_after_remove_loop (camel : String → String) (skip : List String)
    (ds : List FieldInfo) :
    ∀ (x : JSONSchemaProps), ∀ d ∈ ds,
      rewriteApplies camel (discriminatorLoop camel true skip ds x) d = false := by
  induction ds with
  | nil => intro x d hd; cases hd
  | cons d0 rest ih =>
    intro x d hd
    have hstep : discriminatorLoop camel true skip (d0 :: rest) x =
        discriminatorLoop camel true skip rest (discriminatorPass camel true skip x d0) := by
      simp [discriminatorLoop]
    rw [hstep]
    by_cases hmem : d ∈ rest
    · exact ih _ d hmem
    · have hd0 : d = d0 := by
        rcases List.mem_cons.mp hd with h | h
        · exact h
        · exact absurd h hmem
      subst hd0
      apply rewriteApplies_false_of_shrink camel (discriminatorPass camel true skip x d)
      · intro k hk
        rcases discriminatorLoop_remove_shrink camel skip rest
          (discriminatorPass camel true skip x d) k with h | h
        · exact h
        · rw [h]; exact hk
      · exact discriminatorLoop_remove_shrink camel skip rest _ _
      · exact rewriteApplies_after_remove_pass camel skip x d

theorem discriminatorLoop_remove_idempotent (camel : String → String) (skip : List String)
    (ds : List FieldInfo) (x : JSONSchemaProps) :
    discriminatorLoop camel true skip ds (discriminatorLoop camel true skip ds x) =
      discriminatorLoop camel true skip ds x :=
  discriminatorLoop_of_none_applied camel true skip ds _
    (none_applies_after_remove_loop camel skip ds x)

theorem withOneOf_withOneOf (x : JSONSchemaProps) (o1 o2 : List JSONSchemaProps) :
    (x.withOneOf o1).withOneOf o2 = x.withOneOf o2 := by cases x; rfl

theorem withOneOf_withProperties_self (x : JSONSchemaProps) (o : List JSONSchemaProps) :
    (x.withOneOf o).withProperties x.properties = x.withOneOf o := by cases x; rfl

theorem mapDelete_of_lookup_none {α : Type} (k : String) (m : List (String × α))
    (h : mapLookup m k = none) : mapDelete k m = m := by
  induction m with
  | nil => rfl
  | cons e rest ih =>
    obtain ⟨k2, v2⟩ := e
    by_cases h2 : k2 = k
    · simp [mapLookup, h2] at h
    · simp only [mapLookup, h2, if_false] at h
      have hcons : mapDelete k ((k2, v2) :: rest) = (k2, v2) :: mapDelete k rest := by
        simp [mapDelete, List.filter_cons, h2]
      rw [hcons, ih h]

theorem deleteSkipped_of_clean (camel : String → String) (skip : List String) :
    ∀ (m : List (String × JSONSchemaProps)),
      (∀ s ∈ skip, mapLookup m (camel s) = none) → deleteSkipped camel skip m = m := by
  induction skip with
  | nil => intro m _; rfl
  | cons s rest ih =>
    intro m h
    have hstep : deleteSkipped camel (s :: rest) m =
        deleteSkipped camel rest (mapDelete (camel s) m) := by
      simp [deleteSkipped]
    rw [hstep, mapDelete_of_lookup_none _ _ (h s (List.mem_cons_self _ _))]
    exact ih m (fun s1 hs1 => h s1 (List.mem_cons_of_mem _ hs1))

theorem survivors_of_clean (camel : String → String) (skip : List String)
    (props : List (String × JSONSchemaProps)) (es : List String)
    (hclean : ∀ s ∈ skip, mapLookup props (camel s) = none)
    (hres : ∀ v ∈ es, resolves camel props v = true) : survivors skip es = es := by
  unfold survivors
  rw [List.filter_eq_self]
  intro v hv
  have hr := hres v hv
  unfold resolves at hr
  by_cases hmem : trimQuotes v ∈ skip
  · rw [hclean _ hmem] at hr; cases hr
  · simpa using hmem

theorem survivors_survivors (skip : List String) (es : List String) :
    survivors skip (survivors skip es) = survivors skip es := by
  unfold survivors
  rw [List.filter_filter]
  simp

theorem settledStep_of_applies (camel : String → String) (x : JSONSchemaProps)
    (o : List JSONSchemaProps) (d : FieldInfo) (p : JSONSchemaProps)
    (hp : mapLookup x.properties (camel d.Name) = some p)
    (happ : rewriteApplies camel x d = true) :
    settledStep camel x.properties o d = oneOfFor camel p.enum := by
  unfold rewriteApplies at happ
  rw [hp] at happ
  simp only [settledStep, hp]
  simp only at happ
  rw [if_pos happ]

theorem settledStep_of_not_applies (camel : String → String) (x : JSONSchemaProps)
    (o : List JSONSchemaProps) (d : FieldInfo)
    (happ : rewriteApplies camel x d = false) :
    settledStep camel x.properties o d = o := by
  unfold rewriteApplies at happ
  unfold settledStep
  cases hp : mapLookup x.properties (camel d.Name) with
  | none => rfl
  | some p =>
    rw [hp] at happ
    simp only at happ
    simp only
    rw [if_neg (by simp [happ])]

theorem discriminatorPass_of_clean (camel : String → String) (skip : List String)
    (x : JSONSchemaProps) (d : FieldInfo)
    (hclean : ∀ s ∈ skip, mapLookup x.properties (camel s) = none) :
    discriminatorPass camel false skip x d =
      x.withOneOf (settledStep camel x.properties x.oneOf d) := by
  cases happ : rewriteApplies camel x d with
  | false =>
    rw [discriminatorPass_not_applied camel false skip x d happ,
      settledStep_of_not_applies camel x _ d happ]
    simp
  | true =>
    obtain ⟨p, hp, hne, hres⟩ := (rewriteApplies_iff camel x d).mp happ
    rw [discriminatorPass_applied camel false skip x d p hp hne hres,
      settledStep_of_applies camel x _ d p hp happ,
      survivors_of_clean camel skip x.properties p.enum hclean hres]
    simp only [Bool.false_eq_true, if_false, withEnum_enum]
    rw [mapSet_of_lookup _ _ _ hp, deleteSkipped_of_clean camel skip _ hclean,
      withOneOf_withProperties_self]

theorem discriminatorLoop_of_clean (camel : String → String) (skip : List String)
    (ds : List FieldInfo) :
    ∀ (x : JSONSchemaProps), (∀ s ∈ skip, mapLookup x.properties (camel s) = none) →
      discriminatorLoop camel false skip ds x =
        x.withOneOf (settledOneOf camel x.properties ds x.oneOf) := by
  induction ds with
  | nil => intro x _; simp [discriminatorLoop, settledOneOf]
  | cons d rest ih =>
    intro x hclean
    have hstep : discriminatorLoop camel false skip (d :: rest) x =
        discriminatorLoop camel false skip rest (discriminatorPass camel false skip x d) := by
      simp [discriminatorLoop]
    rw [hstep, discriminatorPass_of_clean camel skip x d hclean, ih _ (by simpa using hclean)]
    simp [withOneOf_withOneOf, settledOneOf]

theorem settledOneOf_const_or_id (camel : String → String)
    (props : List (String × JSONSchemaProps)) (ds : List FieldInfo) :
    (∀ o, settledOneOf camel props ds o = o) ∨
      (∃ c, ∀ o, settledOneOf camel props ds o = c) := by
  induction ds using List.reverseRecOn with
  | nil => left; intro o; rfl
  | append_singleton init d ih =>
    have hsnoc : ∀ o, settledOneOf camel props (init ++ [d]) o =
        settledStep camel props (settledOneOf camel props init o) d := by
      intro o; simp [settledOneOf, List.foldl_append]
    have hstep : (∀ o, settledStep camel props o d = o) ∨
        (∃ c, ∀ o, settledStep camel props o d = c) := by
      unfold settledStep
      cases mapLookup props (camel d.Name) with
      | none => left; intro o; rfl
      | some p =>
        by_cases hc : (!p.enum.isEmpty && p.enum.all (resolves camel props)) = true
        · right; exact ⟨oneOfFor camel p.enum, fun o => by simp only [hc, if_true]⟩
        · left; intro o; simp only [hc, if_false]; rfl
    rcases hstep with hs | ⟨c, hc⟩
    · rcases ih with hi | ⟨c, hc⟩
      · left; intro o; rw [hsnoc, hs, hi]
      · right; exact ⟨c, fun o => by rw [hsnoc, hs, hc]⟩
    · right; exact ⟨c, fun o => by rw [hsnoc, hc]⟩

theorem settledOneOf_idempotent (camel : String → String)
    (props : List (String × JSONSchemaProps)) (ds : List FieldInfo)
    (o : List JSONSchemaProps) :
    settledOneOf camel props ds (settledOneOf camel props ds o) =
      settledOneOf camel props ds o := by
  rcases settledOneOf_const_or_id camel props ds with h | ⟨c, hc⟩
  · rw [h, h]
  · rw [hc, hc]

theorem rewriteApplies_congr_name (camel : String → String) (x : JSONSchemaProps)
    (d1 d2 : FieldInfo) (h : camel d1.Name = camel d2.Name) :
    rewriteApplies camel x d1 = rewriteApplies camel x d2 := by
  simp [rewriteApplies, h]

theorem settledOneOf_append (camel : String → String)
    (props : List (String × JSONSchemaProps)) (ds1 ds2 : List FieldInfo)
    (o : List JSONSchemaProps) :
    settledOneOf camel props (ds1 ++ ds2) o =
      settledOneOf camel props ds2 (settledOneOf camel props ds1 o) := by
  simp [settledOneOf, List.foldl_append]

theorem settledOneOf_of_none_applied (camel : String → String) (x : JSONSchemaProps)
    (ds : List FieldInfo) (o : List JSONSchemaProps)
    (h : ∀ d ∈ ds, rewriteApplies camel x d = false) :
    settledOneOf camel x.properties ds o = o := by
  induction ds generalizing o with
  | nil => rfl
  | cons d rest ih =>
    have hstep : settledOneOf camel x.properties (d :: rest) o =
        settledOneOf camel x.properties rest (settledStep camel x.properties o d) := by
      simp [settledOneOf]
    rw [hstep, settledStep_of_not_applies camel x o d (h d (List.mem_cons_self _ _))]
    exact ih o (fun d1 hd1 => h d1 (List.mem_cons_of_mem _ hd1))

/-- The state after the first applied pass of a run that retains the discriminators is a
fixed point of the whole loop, once the remaining passes have run. -/
theorem discriminatorLoop_retain_after_first (camel : String → String) (skip : List String)
    (pre post : List FieldInfo) (d : FieldInfo) (x : JSONSchemaProps)
    (hpre : ∀ d1 ∈ pre, rewriteApplies camel x d1 = false)
    (happ : rewriteApplies camel x d = true) :
    discriminatorLoop camel false skip (pre ++ d :: post)
        (discriminatorLoop camel false skip post (discriminatorPass camel false skip x d)) =
      discriminatorLoop camel false skip post (discriminatorPass camel false skip x d) := by
  obtain ⟨p, hp, hne, hres⟩ := (rewriteApplies_iff camel x d).mp happ
  have hpass := discriminatorPass_applied camel false skip x d p hp hne hres
  simp only [Bool.false_eq_true, if_false] at hpass
  -- the node after the pass
  have hlook : ∀ k, mapLookup (discriminatorPass camel false skip x d).properties k =
      if k ∈ skip.map camel then none
      else if k = camel d.Name then some (p.withEnum (survivors skip p.enum))
      else mapLookup x.properties k := by
    intro k
    rw [hpass]
    simp [mapLookup_deleteSkipped, mapLookup_mapSet]
  have hone : (discriminatorPass camel false skip x d).oneOf =
      oneOfFor camel (survivors skip p.enum) := by
    rw [hpass]; simp
  have hclean : ∀ s ∈ skip,
      mapLookup (discriminatorPass camel false skip x d).properties (camel s) = none := by
    intro s hs
    rw [hlook]
    simp [List.mem_map_of_mem camel hs]
  generalize hy : discriminatorPass camel false skip x d = y at hlook hone hclean
  -- the final node of the first run
  have hfinal := discriminatorLoop_of_clean camel skip post y hclean
  have hcleanF : ∀ s ∈ skip,
      mapLookup (discriminatorLoop camel false skip post y).properties (camel s) = none := by
    rw [hfinal]; simpa using hclean
  rw [discriminatorLoop_of_clean camel skip (pre ++ d :: post) _ hcleanF]
  rw [hfinal]
  simp only [properties_withOneOf, oneOf_withOneOf, withOneOf_withOneOf]
  congr 1
  have hsplit : pre ++ d :: post = pre ++ ([d] ++ post) := by simp
  rw [hsplit, settledOneOf_append, settledOneOf_append]
  -- the passes of `pre` change nothing
  have hpreY : ∀ d1 ∈ pre, rewriteApplies camel y d1 = false := by
    intro d1 hd1
    have hd1x := hpre d1 hd1
    have hname : camel d1.Name ≠ camel d.Name := by
      intro hEq
      rw [rewriteApplies_congr_name camel x d1 d hEq, happ] at hd1x
      cases hd1x
    apply rewriteApplies_false_of_shrink camel x y d1 _ _ hd1x
    · intro k hk
      rw [hlook]
      by_cases h1 : k ∈ skip.map camel
      · simp [h1]
      · by_cases h2 : k = camel d.Name
        · subst h2; rw [hp] at hk; cases hk
        · simp [h1, h2, hk]
    · rw [hlook]
      by_cases h1 : camel d1.Name ∈ skip.map camel
      · left; simp [h1]
      · right; simp [h1, hname]
  rw [settledOneOf_of_none_applied camel y pre _ hpreY]
  -- the pass of `d`
  have hd : settledOneOf camel y.properties [d]
        (settledOneOf camel y.properties post y.oneOf) = y.oneOf ∨
      settledOneOf camel y.properties [d]
        (settledOneOf camel y.properties post y.oneOf) =
        settledOneOf camel y.properties post y.oneOf := by
    have hsingle : ∀ o, settledOneOf camel y.properties [d] o =
        settledStep camel y.properties o d := by
      intro o; simp [settledOneOf]
    rw [hsingle]
    cases happY : rewriteApplies camel y d with
    | false => right; exact settledStep_of_not_applies camel y _ d happY
    | true =>
      left
      obtain ⟨q, hq, _, _⟩ := (rewriteApplies_iff camel y d).mp happY
      have hq2 := hlook (camel d.Name)
      rw [hq] at hq2
      by_cases h1 : camel d.Name ∈ skip.map camel
      · simp [h1] at hq2
      · simp only [h1, if_false, if_true] at hq2
        have hqe : q = p.withEnum (survivors skip p.enum) := by
          simpa using hq2
        rw [settledStep_of_applies camel y _ d q hq happY, hone, hqe]
        simp only [enum_withEnum]
  rcases hd with hd | hd
  · rw [hd]
  · rw [hd, settledOneOf_idempotent]

/-- Node-level idempotence of the loop when the discriminators are retained. -/
theorem discriminatorLoop_retain_idempotent_aux (camel : String → String)
    (skip : List String) (rest : List FieldInfo) :
    ∀ (pre : List FieldInfo) (x : JSONSchemaProps),
      (∀ d1 ∈ pre, rewriteApplies camel x d1 = false) →
      discriminatorLoop camel false skip (pre ++ rest)
          (discriminatorLoop camel false skip rest x) =
        discriminatorLoop camel false skip rest x := by
  induction rest with
  | nil =>
    intro pre x hpre
    simp only [List.append_nil]
    have : discriminatorLoop camel false skip [] x = x := rfl
    rw [this]
    exact discriminatorLoop_of_none_applied camel false skip pre x hpre
  | cons d post ih =>
    intro pre x hpre
    have hstep : discriminatorLoop camel false skip (d :: post) x =
        discriminatorLoop camel false skip post (discriminatorPass camel false skip x d) := by
      simp [discriminatorLoop]
    rw [hstep]
    cases happ : rewriteApplies camel x d with
    | true => exact discriminatorLoop_retain_after_first camel skip pre post d x hpre happ
    | false =>
      rw [discriminatorPass_not_applied camel false skip x d happ]
      have hpre2 : ∀ d1 ∈ pre ++ [d], rewriteApplies camel x d1 = false := by
        intro d1 hd1
        rcases List.mem_append.mp hd1 with h | h
        · exact hpre d1 h
        · rw [List.mem_singleton.mp h]; exact happ
      have := ih (pre ++ [d]) x hpre2
      simpa using this

theorem discriminatorLoop_idempotent (camel : String → String) (rm : Bool)
    (skip : List String) (ds : List FieldInfo) (x : JSONSchemaProps) :
    discriminatorLoop camel rm skip ds (discriminatorLoop camel rm skip ds x) =
      discriminatorLoop camel rm skip ds x := by
  cases rm with
  | true => exact discriminatorLoop_remove_idempotent camel skip ds x
  | false =>
    have := discriminatorLoop_retain_idempotent_aux camel skip ds [] x
      (fun d1 hd1 => by cases hd1)
    simpa using this

theorem mainVisitorEffect_some (camel : String → String) (ds : List FieldInfo) (rm : Bool)
    (skip : List String) (x : JSONSchemaProps) :
    mainVisitorEffect camel ds rm skip (some x) = some (rewriteNode camel ds rm skip x) := by
  unfold mainVisitorEffect rewriteNode
  by_cases h1 : x.type ≠ "object"
  · simp [h1]
  · by_cases h2 : x.properties.length = 0
    · simp [h1, h2]
    · simp [h1, h2]

theorem mapLookup_mapValues (g : JSONSchemaProps → JSONSchemaProps)
    (m : List (String × JSONSchemaProps)) (k : String) :
    mapLookup (mapValues g m) k = (mapLookup m k).map g := by
  induction m with
  | nil => rfl
  | cons e rest ih =>
    obtain ⟨k2, v2⟩ := e
    have hcons : mapValues g ((k2, v2) :: rest) = (k2, g v2) :: mapValues g rest := rfl
    rw [hcons]
    by_cases h2 : k2 = k
    · simp [mapLookup, h2]
    · simp [mapLookup, h2, ih]

theorem mapValues_mapDelete (g : JSONSchemaProps → JSONSchemaProps)
    (m : List (String × JSONSchemaProps)) (k : String) :
    mapValues g (mapDelete k m) = mapDelete k (mapValues g m) := by
  unfold mapValues mapDelete
  rw [List.filter_map]
  rfl

theorem mapValues_mapSet (g : JSONSchemaProps → JSONSchemaProps)
    (m : List (String × JSONSchemaProps)) (k : String) (v : JSONSchemaProps) :
    mapValues g (mapSet k v m) = mapSet k (g v) (mapValues g m) := by
  induction m with
  | nil => rfl
  | cons e rest ih =>
    obtain ⟨k2, v2⟩ := e
    have hcons : mapValues g ((k2, v2) :: rest) = (k2, g v2) :: mapValues g rest := rfl
    by_cases h2 : k2 = k
    · simp [mapSet, h2, hcons]
      rfl
    · rw [hcons]
      simp only [mapSet, h2, if_false]
      rw [← ih]
      rfl

theorem mapValues_deleteSkipped (g : JSONSchemaProps → JSONSchemaProps)
    (camel : String → String) (skip : List String) :
    ∀ (m : List (String × JSONSchemaProps)),
      mapValues g (deleteSkipped camel skip m) = deleteSkipped camel skip (mapValues g m) := by
  induction skip with
  | nil => intro m; rfl
  | cons s rest ih =>
    intro m
    have hstep : ∀ m1, deleteSkipped camel (s :: rest) m1 =
        deleteSkipped camel rest (mapDelete (camel s) m1) := by
      intro m1; simp [deleteSkipped]
    rw [hstep, hstep, ih, mapValues_mapDelete]

theorem resolves_mapValues (g : JSONSchemaProps → JSONSchemaProps) (camel : String → String)
    (m : List (String × JSONSchemaProps)) (v : String) :
    resolves camel (mapValues g m) v = resolves camel m v := by
  unfold resolves
  rw [mapLookup_mapValues]
  cases mapLookup m (camel (trimQuotes v)) <;> rfl

theorem properties_liftChildren (g : JSONSchemaProps → JSONSchemaProps)
    (x : JSONSchemaProps) : (liftChildren g x).properties = mapValues g x.properties := by
  simp [liftChildren]

theorem rewriteApplies_liftChildren (g : JSONSchemaProps → JSONSchemaProps)
    (hE : ∀ c, (g c).enum = c.enum) (camel : String → String) (x : JSONSchemaProps)
    (d : FieldInfo) :
    rewriteApplies camel (liftChildren g x) d = rewriteApplies camel x d := by
  unfold rewriteApplies
  rw [properties_liftChildren, mapLookup_mapValues]
  cases hp : mapLookup x.properties (camel d.Name) with
  | none => rfl
  | some p =>
    have hfun : resolves camel (mapValues g x.properties) = resolves camel x.properties :=
      funext (fun v => resolves_mapValues g camel x.properties v)
    rw [hfun]
    show (!(g p).enum.isEmpty && (g p).enum.all (resolves camel x.properties)) = _
    rw [hE]

theorem liftChildren_assemble (g : JSONSchemaProps → JSONSchemaProps) (x : JSONSchemaProps)
    (o : List JSONSchemaProps) (m : List (String × JSONSchemaProps)) :
    ((liftChildren g x).withOneOf o).withProperties (mapValues g m) =
      liftChildren g ((x.withOneOf o).withProperties m) := by
  cases x; rfl

theorem discriminatorPass_liftChildren (g : JSONSchemaProps → JSONSchemaProps)
    (hE : ∀ c, (g c).enum = c.enum) (hW : ∀ c e, g (c.withEnum e) = (g c).withEnum e)
    (camel : String → String) (rm : Bool) (skip : List String) (x : JSONSchemaProps)
    (d : FieldInfo) :
    discriminatorPass camel rm skip (liftChildren g x) d =
      liftChildren g (discriminatorPass camel rm skip x d) := by
  cases happ : rewriteApplies camel x d with
  | false =>
    have happ2 : rewriteApplies camel (liftChildren g x) d = false := by
      rw [rewriteApplies_liftChildren g hE]; exact happ
    rw [discriminatorPass_not_applied camel rm skip _ d happ2,
      discriminatorPass_not_applied camel rm skip _ d happ]
  | true =>
    obtain ⟨p, hp, hne, hres⟩ := (rewriteApplies_iff camel x d).mp happ
    have hp2 : mapLookup (liftChildren g x).properties (camel d.Name) = some (g p) := by
      rw [properties_liftChildren, mapLookup_mapValues, hp]; rfl
    have hne2 : (g p).enum ≠ [] := by rw [hE]; exact hne
    have hres2 : ∀ v ∈ (g p).enum, resolves camel (liftChildren g x).properties v = true := by
      intro v hv
      rw [hE] at hv
      rw [properties_liftChildren, resolves_mapValues]
      exact hres v hv
    rw [discriminatorPass_applied camel rm skip _ d (g p) hp2 hne2 hres2,
      discriminatorPass_applied camel rm skip x d p hp hne hres, hE,
      ← liftChildren_assemble, properties_liftChildren]
    congr 1
    rw [mapValues_deleteSkipped]
    congr 1
    cases rm
    · simp only [Bool.false_eq_true, if_false]
      rw [mapValues_mapSet, hW]
    · simp only [if_true]
      rw [mapValues_mapDelete]

theorem discriminatorLoop_liftChildren (g : JSONSchemaProps → JSONSchemaProps)
    (hE : ∀ c, (g c).enum = c.enum) (hW : ∀ c e, g (c.withEnum e) = (g c).withEnum e)
    (camel : String → String) (rm : Bool) (skip : List String) (ds : List FieldInfo) :
    ∀ x, discriminatorLoop camel rm skip ds (liftChildren g x) =
      liftChildren g (discriminatorLoop camel rm skip ds x) := by
  induction ds with
  | nil => intro x; rfl
  | cons d rest ih =>
    intro x
    have hstep : ∀ y, discriminatorLoop camel rm skip (d :: rest) y =
        discriminatorLoop camel rm skip rest (discriminatorPass camel rm skip y d) := by
      intro y; simp [discriminatorLoop]
    rw [hstep, hstep, discriminatorPass_liftChildren g hE hW, ih]

theorem rewriteNode_liftChildren (g : JSONSchemaProps → JSONSchemaProps)
    (hE : ∀ c, (g c).enum = c.enum) (hW : ∀ c e, g (c.withEnum e) = (g c).withEnum e)
    (camel : String → String) (ds : List FieldInfo) (rm : Bool) (skip : List String)
    (x : JSONSchemaProps) :
    rewriteNode camel ds rm skip (liftChildren g x) =
      liftChildren g (rewriteNode camel ds rm skip x) := by
  unfold rewriteNode
  have ht : (liftChildren g x).type = x.type := by simp [liftChildren]
  have hl : (liftChildren g x).properties.length = x.properties.length := by
    simp [liftChildren, mapValues]
  rw [ht, hl]
  by_cases h1 : x.type ≠ "object"
  · simp [h1]
  · by_cases h2 : x.properties.length = 0
    · simp [h1, h2]
    · simp only [h1, h2, if_false]
      exact discriminatorLoop_liftChildren g hE hW camel rm skip ds x

theorem discriminatorPass_type_enum (camel : String → String) (rm : Bool)
    (skip : List String) (x : JSONSchemaProps) (d : FieldInfo) :
    (discriminatorPass camel rm skip x d).type = x.type ∧
      (discriminatorPass camel rm skip x d).enum = x.enum := by
  cases happ : rewriteApplies camel x d with
  | false => rw [discriminatorPass_not_applied camel rm skip x d happ]; exact ⟨rfl, rfl⟩
  | true =>
    obtain ⟨p, hp, hne, hres⟩ := (rewriteApplies_iff camel x d).mp happ
    rw [discriminatorPass_applied camel rm skip x d p hp hne hres]
    simp

theorem discriminatorLoop_type_enum (camel : String → String) (rm : Bool)
    (skip : List String) (ds : List FieldInfo) :
    ∀ x, (discriminatorLoop camel rm skip ds x).type = x.type ∧
      (discriminatorLoop camel rm skip ds x).enum = x.enum := by
  induction ds with
  | nil => intro x; exact ⟨rfl, rfl⟩
  | cons d rest ih =>
    intro x
    have hstep : discriminatorLoop camel rm skip (d :: rest) x =
        discriminatorLoop camel rm skip rest (discriminatorPass camel rm skip x d) := by
      simp [discriminatorLoop]
    rw [hstep, (ih _).1, (ih _).2]
    exact discriminatorPass_type_enum camel rm skip x d

theorem rewriteNode_enum (camel : String → String) (ds : List FieldInfo) (rm : Bool)
    (skip : List String) (x : JSONSchemaProps) :
    (rewriteNode camel ds rm skip x).enum = x.enum := by
  unfold rewriteNode
  split
  · rfl
  · split
    · rfl
    · exact (discriminatorLoop_type_enum camel rm skip ds x).2

theorem rewriteNode_idempotent (camel : String → String) (ds : List FieldInfo) (rm : Bool)
    (skip : List String) (x : JSONSchemaProps) :
    rewriteNode camel ds rm skip (rewriteNode camel ds rm skip x) =
      rewriteNode camel ds rm skip x := by
  by_cases h1 : x.type ≠ "object"
  · simp [rewriteNode, h1]
  · by_cases h2 : x.properties.length = 0
    · simp [rewriteNode, h1, h2]
    · have hx : rewriteNode camel ds rm skip x = discriminatorLoop camel rm skip ds x := by
        simp [rewriteNode, h1, h2]
      rw [hx]
      unfold rewriteNode
      rw [(discriminatorLoop_type_enum camel rm skip ds x).1]
      simp only [h1, if_false]
      split
      · rfl
      · exact discriminatorLoop_idempotent camel rm skip ds x

theorem withEnum_assemble (x : JSONSchemaProps) (e : List String)
    (o : List JSONSchemaProps) (m : List (String × JSONSchemaProps)) :
    ((x.withEnum e).withOneOf o).withProperties m =
      ((x.withOneOf o).withProperties m).withEnum e := by
  cases x; rfl

theorem discriminatorPass_withEnum (camel : String → String) (rm : Bool)
    (skip : List String) (x : JSONSchemaProps) (e : List String) (d : FieldInfo) :
    discriminatorPass camel rm skip (x.withEnum e) d =
      (discriminatorPass camel rm skip x d).withEnum e := by
  have happEq : rewriteApplies camel (x.withEnum e) d = rewriteApplies camel x d := by
    simp [rewriteApplies]
  cases happ : rewriteApplies camel x d with
  | false =>
    rw [discriminatorPass_not_applied camel rm skip x d happ,
      discriminatorPass_not_applied camel rm skip _ d (happEq.trans happ)]
  | true =>
    obtain ⟨p, hp, hne, hres⟩ := (rewriteApplies_iff camel x d).mp happ
    rw [discriminatorPass_applied camel rm skip x d p hp hne hres,
      discriminatorPass_applied camel rm skip (x.withEnum e) d p (by simpa using hp) hne
        (by simpa using hres)]
    simp only [properties_withEnum]
    exact withEnum_assemble x e _ _

theorem discriminatorLoop_withEnum (camel : String → String) (rm : Bool)
    (skip : List String) (ds : List FieldInfo) (e : List String) :
    ∀ x, discriminatorLoop camel rm skip ds (x.withEnum e) =
      (discriminatorLoop camel rm skip ds x).withEnum e := by
  induction ds with
  | nil => intro x; rfl
  | cons d rest ih =>
    intro x
    have hstep : ∀ y, discriminatorLoop camel rm skip (d :: rest) y =
        discriminatorLoop camel rm skip rest (discriminatorPass camel rm skip y d) := by
      intro y; simp [discriminatorLoop]
    rw [hstep, hstep, discriminatorPass_withEnum, ih]

theorem rewriteNode_withEnum (camel : String → String) (ds : List FieldInfo) (rm : Bool)
    (skip : List String) (x : JSONSchemaProps) (e : List String) :
    rewriteNode camel ds rm skip (x.withEnum e) =
      (rewriteNode camel ds rm skip x).withEnum e := by
  unfold rewriteNode
  simp only [type_withEnum, properties_withEnum]
  split
  · rfl
  · split
    · rfl
    · exact discriminatorLoop_withEnum camel rm skip ds e x

/-! ### Heights -/

theorem heightProps_le_iff (n : Nat) (m : List (String × JSONSchemaProps)) :
    JSONSchemaProps.heightProps m ≤ n ↔ heightBounded n m := by
  induction m with
  | nil => simp [JSONSchemaProps.heightProps, heightBounded]
  | cons e rest ih =>
    obtain ⟨k, c⟩ := e
    simp only [JSONSchemaProps.heightProps, heightBounded, List.mem_cons, forall_eq_or_imp,
      max_le_iff]
    unfold heightBounded at ih
    rw [ih]

theorem height_le_succ_iff (n : Nat) (x : JSONSchemaProps) :
    x.height ≤ n + 1 ↔ heightBounded n x.properties := by
  cases x with
  | mk t p e o r =>
    simp only [JSONSchemaProps.height, JSONSchemaProps.properties, Nat.add_le_add_iff_right]
    exact heightProps_le_iff n p

theorem height_withEnum (x : JSONSchemaProps) (e : List String) :
    (x.withEnum e).height = x.height := by
  cases x; simp [JSONSchemaProps.withEnum, JSONSchemaProps.height]

theorem mapLookup_mem {α : Type} (m : List (String × α)) (k : String) (v : α)
    (h : mapLookup m k = some v) : (k, v) ∈ m := by
  induction m with
  | nil => simp [mapLookup] at h
  | cons e rest ih =>
    obtain ⟨k2, v2⟩ := e
    by_cases h2 : k2 = k
    · simp [mapLookup, h2] at h
      simp [h2, h]
    · simp only [mapLookup, h2, if_false] at h
      exact List.mem_cons_of_mem _ (ih h)

theorem heightBounded_mapDelete (n : Nat) (k : String) (m : List (String × JSONSchemaProps))
    (h : heightBounded n m) : heightBounded n (mapDelete k m) := by
  intro e he
  exact h e (List.mem_of_mem_filter he)

theorem heightBounded_deleteSkipped (n : Nat) (camel : String → String)
    (skip : List String) :
    ∀ m, heightBounded n m → heightBounded n (deleteSkipped camel skip m) := by
  induction skip with
  | nil => intro m h; exact h
  | cons s rest ih =>
    intro m h
    have hstep : deleteSkipped camel (s :: rest) m =
        deleteSkipped camel rest (mapDelete (camel s) m) := by
      simp [deleteSkipped]
    rw [hstep]
    exact ih _ (heightBounded_mapDelete n _ m h)

theorem heightBounded_mapSet (n : Nat) (k : String) (v : JSONSchemaProps)
    (m : List (String × JSONSchemaProps)) (hv : v.height ≤ n) (h : heightBounded n m) :
    heightBounded n (mapSet k v m) := by
  induction m with
  | nil =>
    intro e he
    simp [mapSet] at he
    rw [he]; exact hv
  | cons e0 rest ih =>
    obtain ⟨k2, v2⟩ := e0
    have hrest : heightBounded n rest := fun e he => h e (List.mem_cons_of_mem _ he)
    by_cases h2 : k2 = k
    · intro e he
      simp only [mapSet, h2, if_true, List.mem_cons] at he
      rcases he with he | he
      · rw [he]; exact hv
      · exact hrest e he
    · intro e he
      simp only [mapSet, h2, if_false, List.mem_cons] at he
      rcases he with he | he
      · rw [he]; exact h _ (List.mem_cons_self _ _)
      · exact ih hrest e he

theorem heightBounded_discriminatorPass (n : Nat) (camel : String → String) (rm : Bool)
    (skip : List String) (x : JSONSchemaProps) (d : FieldInfo)
    (h : heightBounded n x.properties) :
    heightBounded n (discriminatorPass camel rm skip x d).properties := by
  cases happ : rewriteApplies camel x d with
  | false => rw [discriminatorPass_not_applied camel rm skip x d happ]; exact h
  | true =>
    obtain ⟨p, hp, hne, hres⟩ := (rewriteApplies_iff camel x d).mp happ
    rw [discriminatorPass_applied camel rm skip x d p hp hne hres]
    simp only [properties_withProperties]
    apply heightBounded_deleteSkipped
    cases rm
    · simp only [Bool.false_eq_true, if_false]
      apply heightBounded_mapSet n _ _ _ _ h
      rw [height_withEnum]
      exact h _ (mapLookup_mem _ _ _ hp)
    · simp only [if_true]
      exact heightBounded_mapDelete n _ _ h

theorem heightBounded_rewriteNode (n : Nat) (camel : String → String) (ds : List FieldInfo)
    (rm : Bool) (skip : List String) (x : JSONSchemaProps)
    (h : heightBounded n x.properties) :
    heightBounded n (rewriteNode camel ds rm skip x).properties := by
  have hloop : ∀ (l : List FieldInfo) (y : JSONSchemaProps), heightBounded n y.properties →
      heightBounded n (discriminatorLoop camel rm skip l y).properties := by
    intro l
    induction l with
    | nil => intro y hy; exact hy
    | cons d rest ih =>
      intro y hy
      have hstep : discriminatorLoop camel rm skip (d :: rest) y =
          discriminatorLoop camel rm skip rest (discriminatorPass camel rm skip y d) := by
        simp [discriminatorLoop]
      rw [hstep]
      exact ih _ (heightBounded_discriminatorPass n camel rm skip y d hy)
  unfold rewriteNode
  split
  · exact h
  · split
    · exact h
    · exact hloop ds x h

theorem walkMap_of_forall (f : JSONSchemaProps → Option JSONSchemaProps)
    (g : JSONSchemaProps → JSONSchemaProps) (m : List (String × JSONSchemaProps))
    (h : ∀ e ∈ m, f e.2 = some (g e.2)) : walkMap f m = some (mapValues g m) := by
  induction m with
  | nil => rfl
  | cons e rest ih =>
    obtain ⟨k, c⟩ := e
    have hc : f c = some (g c) := h (k, c) (List.mem_cons_self _ _)
    have hrest := ih (fun e he => h e (List.mem_cons_of_mem _ he))
    simp only [walkMap, hc, hrest]
    rfl

theorem mapValues_id_of_forall (g : JSONSchemaProps → JSONSchemaProps)
    (m : List (String × JSONSchemaProps)) (h : ∀ e ∈ m, g e.2 = e.2) :
    mapValues g m = m := by
  induction m with
  | nil => rfl
  | cons e rest ih =>
    obtain ⟨k, c⟩ := e
    have hc : g c = c := h (k, c) (List.mem_cons_self _ _)
    have hrest := ih (fun e he => h e (List.mem_cons_of_mem _ he))
    unfold mapValues at hrest ⊢
    simp only [List.map_cons, hc, hrest]

theorem walkSchema_mainVisitor_succ (camel : String → String) (ds : List FieldInfo)
    (rm : Bool) (skip : List String) (n : Nat) (x : JSONSchemaProps) :
    walkSchema (n + 1) (visitorStruct.mk (mainVisitor camel ds rm skip)) x =
      (walkMap (walkSchema n (visitorStruct.mk (mainVisitor camel ds rm skip)))
        (rewriteNode camel ds rm skip x).properties).map
        (rewriteNode camel ds rm skip x).withProperties := by
  simp [walkSchema, visitorStruct.Visit, mainVisitor, Visitor.run, mainVisitorEffect_some]

theorem walkSchema_mainVisitor_enum (camel : String → String) (ds : List FieldInfo)
    (rm : Bool) (skip : List String) (n : Nat) (x y : JSONSchemaProps)
    (h : walkSchema n (visitorStruct.mk (mainVisitor camel ds rm skip)) x = some y) :
    y.enum = x.enum := by
  cases n with
  | zero => simp [walkSchema] at h
  | succ n =>
    rw [walkSchema_mainVisitor_succ] at h
    cases hw : walkMap (walkSchema n (visitorStruct.mk (mainVisitor camel ds rm skip)))
        (rewriteNode camel ds rm skip x).properties with
    | none => rw [hw] at h; cases h
    | some m =>
      rw [hw] at h
      simp only [Option.map_some'] at h
      cases h
      simp [rewriteNode_enum]

theorem withEnum_withProperties_comm (x : JSONSchemaProps) (e : List String)
    (m : List (String × JSONSchemaProps)) :
    (x.withEnum e).withProperties m = (x.withProperties m).withEnum e := by
  cases x; rfl

theorem walkSchema_mainVisitor_withEnum (camel : String → String) (ds : List FieldInfo)
    (rm : Bool) (skip : List String) (n : Nat) (x : JSONSchemaProps) (e : List String) :
    walkSchema n (visitorStruct.mk (mainVisitor camel ds rm skip)) (x.withEnum e) =
      (walkSchema n (visitorStruct.mk (mainVisitor camel ds rm skip)) x).map
        (fun y => y.withEnum e) := by
  cases n with
  | zero => simp [walkSchema]
  | succ n =>
    rw [walkSchema_mainVisitor_succ, walkSchema_mainVisitor_succ, rewriteNode_withEnum]
    simp only [properties_withEnum]
    cases walkMap (walkSchema n (visitorStruct.mk (mainVisitor camel ds rm skip)))
        (rewriteNode camel ds rm skip x).properties with
    | none => rfl
    | some m => simp [withEnum_withProperties_comm]

/-- With fuel at least the height of the tree, the walk with the union rewriter returns a
tree, and that tree is a fixed point of the walk. -/
theorem walkSchema_mainVisitor_fixed (camel : String → String) (ds : List FieldInfo)
    (rm : Bool) (skip : List String) (n : Nat) :
    ∀ x : JSONSchemaProps, x.height ≤ n →
      ∃ y, walkSchema n (visitorStruct.mk (mainVisitor camel ds rm skip)) x = some y ∧
        walkSchema n (visitorStruct.mk (mainVisitor camel ds rm skip)) y = some y := by
  induction n with
  | zero =>
    intro x hx
    cases x with
    | mk t p e o r => simp [JSONSchemaProps.height] at hx
  | succ n ih =>
    intro x hx
    have hb : heightBounded n (rewriteNode camel ds rm skip x).properties :=
      heightBounded_rewriteNode n camel ds rm skip x ((height_le_succ_iff n x).mp hx)
    let W := walkSchema n (visitorStruct.mk (mainVisitor camel ds rm skip))
    let g : JSONSchemaProps → JSONSchemaProps := fun c => (W c).getD c
    have hE : ∀ c, (g c).enum = c.enum := by
      intro c
      show ((W c).getD c).enum = c.enum
      cases hc : W c with
      | none => rfl
      | some y => exact walkSchema_mainVisitor_enum camel ds rm skip n c y hc
    have hW : ∀ c e, g (c.withEnum e) = (g c).withEnum e := by
      intro c e
      show ((W (c.withEnum e)).getD (c.withEnum e)) = ((W c).getD c).withEnum e
      have := walkSchema_mainVisitor_withEnum camel ds rm skip n c e
      show ((walkSchema n (visitorStruct.mk (mainVisitor camel ds rm skip))
        (c.withEnum e)).getD (c.withEnum e)) = _
      rw [this]
      cases hc : W c with
      | none =>
        have hc2 : walkSchema n (visitorStruct.mk (mainVisitor camel ds rm skip)) c = none := hc
        rw [hc2]; rfl
      | some y =>
        have hc2 : walkSchema n (visitorStruct.mk (mainVisitor camel ds rm skip)) c = some y :=
          hc
        rw [hc2]; rfl
    have hchild : ∀ e ∈ (rewriteNode camel ds rm skip x).properties,
        W e.2 = some (g e.2) ∧ W (g e.2) = some (g e.2) := by
      intro e he
      obtain ⟨y, hy1, hy2⟩ := ih e.2 (hb e he)
      have hg : g e.2 = y := by
        show (W e.2).getD e.2 = y
        have : W e.2 = some y := hy1
        rw [this]; rfl
      rw [hg]
      exact ⟨hy1, hy2⟩
    refine ⟨liftChildren g (rewriteNode camel ds rm skip x), ?_, ?_⟩
    · rw [walkSchema_mainVisitor_succ,
        walkMap_of_forall _ g _ (fun e he => (hchild e he).1)]
      rfl
    · rw [walkSchema_mainVisitor_succ, rewriteNode_liftChildren g hE hW,
        rewriteNode_idempotent, properties_liftChildren]
      have hfix : ∀ e ∈ mapValues g (rewriteNode camel ds rm skip x).properties,
          W e.2 = some (id e.2) := by
        intro e he
        unfold mapValues at he
        obtain ⟨e0, he0, rfl⟩ := List.mem_map.mp he
        exact (hchild e0 he0).2
      rw [walkMap_of_forall _ id _ hfix, mapValues_id_of_forall id _ (fun _ _ => rfl)]
      simp only [Option.map_some']
      congr 1
      rw [← properties_liftChildren]
      exact withProperties_properties _

/-! ## Frame, skipped discriminators and the test verdict: lemmas -/

theorem rewriteApplies_false_of_inert (camel : String → String) (x : JSONSchemaProps)
    (d : FieldInfo) (h : inertKey x (camel d.Name)) : rewriteApplies camel x d = false := by
  unfold rewriteApplies
  rcases h with h | ⟨p, hp, he⟩
  · rw [h]
  · rw [hp]; simp [he]

theorem inertKey_discriminatorPass (camel : String → String) (rm : Bool) (skip : List String)
    (x : JSONSchemaProps) (d : FieldInfo) (k : String) (h : inertKey x k) :
    inertKey (discriminatorPass camel rm skip x d) k := by
  cases happ : rewriteApplies camel x d with
  | false => rw [discriminatorPass_not_applied camel rm skip x d happ]; exact h
  | true =>
    obtain ⟨p, hp, hne, hres⟩ := (rewriteApplies_iff camel x d).mp happ
    have hk : k ≠ camel d.Name := by
      intro hEq
      subst hEq
      rcases h with h | ⟨q, hq, he⟩
      · rw [h] at hp; cases hp
      · rw [hq] at hp; cases hp; exact hne he
    have hlook : mapLookup (discriminatorPass camel rm skip x d).properties k =
        if k ∈ skip.map camel then none else mapLookup x.properties k := by
      rw [discriminatorPass_applied camel rm skip x d p hp hne hres]
      cases rm
      · simp [mapLookup_deleteSkipped, mapLookup_mapSet, hk]
      · simp [mapLookup_deleteSkipped, mapLookup_mapDelete, hk]
    unfold inertKey
    rw [hlook]
    by_cases h1 : k ∈ skip.map camel
    · left; simp [h1]
    · simp only [h1, if_false]; exact h

theorem inertKey_discriminatorLoop (camel : String → String) (rm : Bool) (skip : List String)
    (ds : List FieldInfo) (k : String) :
    ∀ x, inertKey x k → inertKey (discriminatorLoop camel rm skip ds x) k := by
  induction ds with
  | nil => intro x h; exact h
  | cons d rest ih =>
    intro x h
    have hstep : discriminatorLoop camel rm skip (d :: rest) x =
        discriminatorLoop camel rm skip rest (discriminatorPass camel rm skip x d) := by
      simp [discriminatorLoop]
    rw [hstep]
    exact ih _ (inertKey_discriminatorPass camel rm skip x d k h)

theorem mainVisitor_run (camel : String → String) (ds : List FieldInfo) (rm : Bool)
    (skip : List String) (node : Option JSONSchemaProps) :
    (mainVisitor camel ds rm skip).run node =
      (mainVisitorEffect camel ds rm skip node, none, false) := rfl

theorem withEnum_withEnum (x : JSONSchemaProps) (e1 e2 : List String) :
    (x.withEnum e1).withEnum e2 = x.withEnum e2 := by cases x; rfl

theorem rewrittenAt_snoc (camel : String → String) (rm : Bool) (skip : List String)
    (init : List FieldInfo) (d : FieldInfo) (x : JSONSchemaProps) (k : String)
    (h : rewrittenAt camel rm skip init x k) :
    rewrittenAt camel rm skip (init ++ [d]) x k := by
  obtain ⟨i, d0, hi, happ, hk⟩ := h
  have hilt : i < init.length := by
    by_contra hcon
    rw [List.getElem?_eq_none (by omega)] at hi
    cases hi
  refine ⟨i, d0, ?_, ?_, hk⟩
  · rw [List.getElem?_append_left hilt]; exact hi
  · rw [List.take_append_of_le_length (le_of_lt hilt)]; exact happ

theorem rewrittenAt_last (camel : String → String) (rm : Bool) (skip : List String)
    (init : List FieldInfo) (d : FieldInfo) (x : JSONSchemaProps)
    (happ : rewriteApplies camel (discriminatorLoop camel rm skip init x) d = true) :
    rewrittenAt camel rm skip (init ++ [d]) x (camel d.Name) := by
  refine ⟨init.length, d, by simp, ?_, rfl⟩
  rw [List.take_append_of_le_length (le_refl _), List.take_length]
  exact happ

/-- The frame of one pass, key by key. -/
theorem discriminatorPass_frame (camel : String → String) (rm : Bool) (skip : List String)
    (x : JSONSchemaProps) (d : FieldInfo) (k : String) :
    (mapLookup (discriminatorPass camel rm skip x d).properties k = none ∧
      (mapLookup x.properties k = none ∨
        (rewriteApplies camel x d = true ∧
          ((rm = true ∧ k = camel d.Name) ∨ k ∈ skip.map camel)))) ∨
    mapLookup (discriminatorPass camel rm skip x d).properties k = mapLookup x.properties k ∨
    (rewriteApplies camel x d = true ∧ rm = false ∧ k = camel d.Name ∧
      ∃ p e, mapLookup x.properties k = some p ∧
        mapLookup (discriminatorPass camel rm skip x d).properties k =
          some (p.withEnum e)) := by
  cases happ : rewriteApplies camel x d with
  | false =>
    right; left
    rw [discriminatorPass_not_applied camel rm skip x d happ]
  | true =>
    obtain ⟨p, hp, hne, hres⟩ := (rewriteApplies_iff camel x d).mp happ
    have hlook : mapLookup (discriminatorPass camel rm skip x d).properties k =
        if k ∈ skip.map camel then none
        else if rm = true then (if k = camel d.Name then none else mapLookup x.properties k)
        else (if k = camel d.Name then some (p.withEnum (survivors skip p.enum))
          else mapLookup x.properties k) := by
      rw [discriminatorPass_applied camel rm skip x d p hp hne hres]
      cases rm
      · simp [mapLookup_deleteSkipped, mapLookup_mapSet]
      · simp [mapLookup_deleteSkipped, mapLookup_mapDelete]
    rw [hlook]
    by_cases h1 : k ∈ skip.map camel
    · exact Or.inl ⟨by simp [h1], Or.inr ⟨rfl, Or.inr h1⟩⟩
    · by_cases h2 : k = camel d.Name
      · cases rm
        · refine Or.inr (Or.inr ⟨rfl, rfl, h2, p, survivors skip p.enum, ?_, ?_⟩)
          · rw [h2]; exact hp
          · rw [if_neg h1, if_neg Bool.false_ne_true, if_pos h2]
        · exact Or.inl ⟨by rw [if_neg h1, if_pos rfl, if_pos h2],
            Or.inr ⟨rfl, Or.inl ⟨rfl, h2⟩⟩⟩
      · refine Or.inr (Or.inl ?_)
        cases rm
        · rw [if_neg h1, if_neg Bool.false_ne_true, if_neg h2]
        · rw [if_neg h1, if_pos rfl, if_neg h2]

/-- The frame of the loop over the discriminators, key by key. -/
theorem discriminatorLoop_frame (camel : String → String) (rm : Bool) (skip : List String)
    (ds : List FieldInfo) (x : JSONSchemaProps) (k : String) :
    (mapLookup x.properties k = none →
      mapLookup (discriminatorLoop camel rm skip ds x).properties k = none) ∧
    (mapLookup x.properties k ≠ none →
      mapLookup (discriminatorLoop camel rm skip ds x).properties k = none →
        (rm = true ∧ rewrittenAt camel rm skip ds x k) ∨ k ∈ skip.map camel) ∧
    (∀ p q, mapLookup x.properties k = some p →
      mapLookup (discriminatorLoop camel rm skip ds x).properties k = some q →
        q = p ∨ (rm = false ∧ rewrittenAt camel rm skip ds x k ∧ ∃ e, q = p.withEnum e)) := by
  induction ds using List.reverseRecOn with
  | nil =>
    refine ⟨fun h => h, fun h1 h2 => absurd h2 h1, ?_⟩
    intro p q hp hq
    left
    have hq' : mapLookup x.properties k = some q := hq
    rw [hp] at hq'
    cases hq'; rfl
  | append_singleton init d ih =>
    obtain ⟨ihA, ihB, ihC⟩ := ih
    rw [discriminatorLoop_snoc]
    generalize hz : discriminatorLoop camel rm skip init x = z at ihA ihB ihC
    have hpass := discriminatorPass_frame camel rm skip z d k
    have hlast : rewriteApplies camel z d = true →
        rewrittenAt camel rm skip (init ++ [d]) x (camel d.Name) := by
      intro happ
      apply rewrittenAt_last
      rw [hz]; exact happ
    refine ⟨?_, ?_, ?_⟩
    · intro hx
      have hzk := ihA hx
      rcases hpass with ⟨h, _⟩ | h | ⟨_, _, _, p, e, hp, _⟩
      · exact h
      · rw [h]; exact hzk
      · rw [hzk] at hp; cases hp
    · intro hx hy
      by_cases hzk : mapLookup z.properties k = none
      · rcases ihB hx hzk with ⟨hrm, hrw⟩ | h
        · exact Or.inl ⟨hrm, rewrittenAt_snoc camel rm skip init d x k hrw⟩
        · exact Or.inr h
      · rcases hpass with ⟨_, h | ⟨happ, ⟨hrm, hk⟩ | hs⟩⟩ | h | ⟨_, _, _, p, e, _, hq⟩
        · exact absurd h hzk
        · left
          refine ⟨hrm, ?_⟩
          rw [hk]; exact hlast happ
        · exact Or.inr hs
        · rw [h] at hy; exact absurd hy hzk
        · rw [hq] at hy; cases hy
    · intro p q hp hq
      rcases hpass with ⟨h, _⟩ | h | ⟨happ, hrm, hk, p1, e, hp1, hq1⟩
      · rw [h] at hq; cases hq
      · rw [h] at hq
        rcases ihC p q hp hq with h1 | ⟨hrm, hrw, he⟩
        · exact Or.inl h1
        · exact Or.inr ⟨hrm, rewrittenAt_snoc camel rm skip init d x k hrw, he⟩
      · rw [hq1] at hq
        cases hq
        right
        refine ⟨hrm, ?_, ?_⟩
        · rw [hk]; exact hlast happ
        · rcases ihC p p1 hp hp1 with h1 | ⟨_, _, e1, he1⟩
          · exact ⟨e, by rw [h1]⟩
          · exact ⟨e, by rw [he1, withEnum_withEnum]⟩

theorem discriminatorPass_required (camel : String → String) (rm : Bool)
    (skip : List String) (x : JSONSchemaProps) (d : FieldInfo) :
    (discriminatorPass camel rm skip x d).required = x.required := by
  cases happ : rewriteApplies camel x d with
  | false => rw [discriminatorPass_not_applied camel rm skip x d happ]
  | true =>
    obtain ⟨p, hp, hne, hres⟩ := (rewriteApplies_iff camel x d).mp happ
    rw [discriminatorPass_applied camel rm skip x d p hp hne hres]
    simp

theorem discriminatorLoop_required (camel : String → String) (rm : Bool)
    (skip : List String) (ds : List FieldInfo) :
    ∀ x, (discriminatorLoop camel rm skip ds x).required = x.required := by
  induction ds with
  | nil => intro x; rfl
  | cons d rest ih =>
    intro x
    have hstep : discriminatorLoop camel rm skip (d :: rest) x =
        discriminatorLoop camel rm skip rest (discriminatorPass camel rm skip x d) := by
      simp [discriminatorLoop]
    rw [hstep, ih, discriminatorPass_required]

theorem containsChars_iff (s substr : List Char) :
    containsChars s substr = true ↔ ∃ a b, s = a ++ substr ++ b := by
  induction s with
  | nil =>
    simp only [containsChars, List.isPrefixOf_iff_prefix]
    constructor
    · intro h
      have : substr = [] := List.prefix_nil.mp h
      exact ⟨[], [], by simp [this]⟩
    · rintro ⟨a, b, h⟩
      have h2 : a ++ substr ++ b = [] := h.symm
      simp only [List.append_eq_nil] at h2
      rw [h2.1.2]
  | cons c cs ih =>
    simp only [containsChars, Bool.or_eq_true, List.isPrefixOf_iff_prefix, ih]
    constructor
    · rintro (⟨t, ht⟩ | ⟨a, b, h⟩)
      · exact ⟨[], t, by simp [ht]⟩
      · exact ⟨c :: a, b, by simp [h]⟩
    · rintro ⟨a, b, h⟩
      cases a with
      | nil => left; exact ⟨b, by simpa using h.symm⟩
      | cons a0 a1 =>
        right
        simp only [List.cons_append, List.cons.injEq] at h
        exact ⟨a1, b, h.2⟩

/-! ## The claims -/

/-- C1: on an object node with non-empty Properties, with the single discriminator `d`
and no exclusion, if the property `camel d.Name` exists with a non-empty Enum whose values
all resolve to keys of Properties, then the visitor returns the node with OneOf equal to
the list of `Required: [camel (unquote v)]` for `v` in the original Enum, in order
(whatever OneOf was before), and with Properties equal to the original ones, less the
discriminator when `removeDiscriminators` is set. -/
theorem successful_rewrite_result (camel : String → String) (rm : Bool)
    (schema : JSONSchemaProps) (d : FieldInfo) (p : JSONSchemaProps)
    (hobj : schema.type = "object") (hprops : schema.properties.length ≠ 0)
    (hp : mapLookup schema.properties (camel d.Name) = some p)
    (henum : p.enum ≠ [])
    (hres : ∀ v ∈ p.enum,
      (mapLookup schema.properties (camel (trimQuotes v))).isSome = true) :
    ∃ node, ((mainVisitor camel [d] rm []).run (some schema)).1 = some node ∧
      node.oneOf = p.enum.map (fun v => JSONSchemaProps.requiring (camel (trimQuotes v))) ∧
      node.properties =
        (if rm then mapDelete (camel d.Name) schema.properties else schema.properties) := by
  refine ⟨discriminatorPass camel rm [] schema d, ?_, ?_, ?_⟩
  · simp [mainVisitor, Visitor.run, mainVisitorEffect, hobj, hprops, discriminatorLoop]
  · rw [discriminatorPass_applied camel rm [] schema d p hp henum hres]
    simp [survivors_nil_skip, oneOfFor]
  · rw [discriminatorPass_applied camel rm [] schema d p hp henum hres]
    cases rm
    · simp [survivors_nil_skip, deleteSkipped, mapSet_of_lookup _ _ _ hp]
    · simp [deleteSkipped]

/-- Witness of C1: the scenario `{kind: enum ["foo","bar"], foo, bar}`, discriminator
`kind`, `removeDiscriminators = true`. -/
theorem successful_rewrite_result_witness :
    ∃ node, ((mainVisitor ToLowerCamel [kindField] true []).run
        (some (kindUnion ["\"foo\"", "\"bar\""]))).1 = some node ∧
      node.oneOf = [JSONSchemaProps.requiring "foo", JSONSchemaProps.requiring "bar"] ∧
      node.properties = [("foo", memberProp), ("bar", memberProp)] :=
  successful_rewrite_result ToLowerCamel true (kindUnion ["\"foo\"", "\"bar\""]) kindField
    (tagProp ["\"foo\"", "\"bar\""]) (by decide) (by decide) rfl (by decide) (by decide)

/-- C2: if the property of `d` exists and at least one value of its Enum (which is
therefore non-empty) resolves to a name that is not a key of Properties, the pass of `d`
returns the node
exactly as it was (Properties, the discriminator's Enum and OneOf included), for both
values of `removeDiscriminators`, every exclusion list and every position of the
offending value. -/
theorem abandonment_safety (camel : String → String) (rm : Bool) (skip : List String)
    (schema : JSONSchemaProps) (d : FieldInfo) (p : JSONSchemaProps)
    (hp : mapLookup schema.properties (camel d.Name) = some p)
    (hbad : ∃ v ∈ p.enum, mapLookup schema.properties (camel (trimQuotes v)) = none) :
    discriminatorPass camel rm skip schema d = schema := by
  apply discriminatorPass_not_applied
  obtain ⟨v, hv, hnone⟩ := hbad
  simp only [rewriteApplies, hp]
  have : p.enum.all (resolves camel schema.properties) = false := by
    rw [List.all_eq_false]
    exact ⟨v, hv, by simp [resolves, hnone]⟩
  simp [this]

/-- Witness of C2: enum `["foo","bar","baz"]` with properties `kind`, `foo`, `bar` and no
`baz`. -/
theorem abandonment_safety_witness :
    discriminatorPass ToLowerCamel true ["bar"]
        (kindUnion ["\"foo\"", "\"bar\"", "\"baz\""]) kindField =
      kindUnion ["\"foo\"", "\"bar\"", "\"baz\""] :=
  abandonment_safety ToLowerCamel true ["bar"] (kindUnion ["\"foo\"", "\"bar\"", "\"baz\""])
    kindField (tagProp ["\"foo\"", "\"bar\"", "\"baz\""]) rfl
    ⟨"\"baz\"", by decide, rfl⟩

/-- C3 (counterexample): with exclusion list `["bar"]` and enum `["foo","bar","baz"]`
(no property `baz`) the rewrite of `kind` is abandoned, so after
`AddUnionOneOfConstraints` the excluded name is still a value of the discriminator's Enum
and still a key of Properties; and on the applied rewrite of enum `["foo","Bar"]` the
OneOf requires the excluded name `bar`. -/
theorem exclusion_correctness_counterexample :
    (∃ node q,
      AddUnionOneOfConstraints ToLowerCamel 2
          (some (kindUnion ["\"foo\"", "\"bar\"", "\"baz\""])) [kindField] false ["bar"] =
        some (some node) ∧
      mapLookup node.properties "kind" = some q ∧
      "bar" ∈ q.enum.map trimQuotes ∧ "bar" ∈ mapKeys node.properties) ∧
    (∃ node,
      AddUnionOneOfConstraints ToLowerCamel 2
          (some (kindUnion ["\"foo\"", "\"Bar\""])) [kindField] false ["bar"] =
        some (some node) ∧
      rewriteApplies ToLowerCamel (kindUnion ["\"foo\"", "\"Bar\""]) kindField = true ∧
      ["bar"] ∈ node.oneOf.map JSONSchemaProps.required) :=
  ⟨⟨_, _, rfl, rfl, by decide, by decide⟩, ⟨_, rfl, by decide, by decide⟩⟩

/-- C3 (amended): after the pass of a discriminator `d` whose rewrite is applied, for every
excluded name `s`: no value of the rebuilt Enum unquotes to `s`, the Enum of the retained
discriminator property has no such value either, every OneOf entry is the constraint of
an enum value whose unquoted form is not `s`, and `camel s` is not a key of Properties. -/
theorem exclusion_correctness_applied (camel : String → String) (rm : Bool)
    (skip : List String) (schema : JSONSchemaProps) (d : FieldInfo) (p : JSONSchemaProps)
    (s : String) (hs : s ∈ skip)
    (hp : mapLookup schema.properties (camel d.Name) = some p)
    (henum : p.enum ≠ [])
    (hres : ∀ v ∈ p.enum, resolves camel schema.properties v = true) :
    (∀ v ∈ survivors skip p.enum, trimQuotes v ≠ s) ∧
    (rm = false → ∀ q,
      mapLookup (discriminatorPass camel rm skip schema d).properties (camel d.Name) = some q →
        ∀ v ∈ q.enum, trimQuotes v ≠ s) ∧
    (∀ e ∈ (discriminatorPass camel rm skip schema d).oneOf,
      ∃ v ∈ p.enum, trimQuotes v ≠ s ∧
        e = JSONSchemaProps.requiring (camel (trimQuotes v))) ∧
    camel s ∉ mapKeys (discriminatorPass camel rm skip schema d).properties := by
  have hsurv : ∀ v ∈ survivors skip p.enum, trimQuotes v ≠ s := by
    intro v hv hvs
    rw [mem_survivors] at hv
    exact hv.2 (hvs ▸ hs)
  rw [discriminatorPass_applied camel rm skip schema d p hp henum hres]
  refine ⟨hsurv, ?_, ?_, ?_⟩
  · intro hrm q hq v hv
    subst hrm
    simp only [properties_withProperties, mapLookup_deleteSkipped, mapLookup_mapSet,
      Bool.false_eq_true, if_false, if_true] at hq
    split at hq
    · cases hq
    · have hq' : q = p.withEnum (survivors skip p.enum) := by
        simpa using hq.symm
      subst hq'
      simp only [enum_withEnum] at hv
      exact hsurv v hv
  · intro e he
    simp only [oneOf_withProperties, oneOf_withOneOf, oneOfFor, List.mem_map] at he
    obtain ⟨v, hv, rfl⟩ := he
    exact ⟨v, ((mem_survivors skip p.enum v).mp hv).1, hsurv v hv, rfl⟩
  · rw [mem_mapKeys_iff]
    simp only [properties_withProperties, mapLookup_deleteSkipped]
    have : camel s ∈ skip.map camel := List.mem_map_of_mem camel hs
    simp [this]

/-- Witness of C3 (amended): enum `["foo","bar"]` with `bar` excluded. -/
theorem exclusion_correctness_applied_witness :
    (∀ v ∈ survivors ["bar"] ["\"foo\"", "\"bar\""], trimQuotes v ≠ "bar") ∧
    (∀ q,
      mapLookup (discriminatorPass ToLowerCamel false ["bar"]
          (kindUnion ["\"foo\"", "\"bar\""]) kindField).properties
        (ToLowerCamel kindField.Name) = some q →
        ∀ v ∈ q.enum, trimQuotes v ≠ "bar") ∧
    (∀ e ∈ (discriminatorPass ToLowerCamel false ["bar"]
          (kindUnion ["\"foo\"", "\"bar\""]) kindField).oneOf,
      ∃ v ∈ (tagProp ["\"foo\"", "\"bar\""]).enum, trimQuotes v ≠ "bar" ∧
        e = JSONSchemaProps.requiring (ToLowerCamel (trimQuotes v))) ∧
    ToLowerCamel "bar" ∉ mapKeys (discriminatorPass ToLowerCamel false ["bar"]
          (kindUnion ["\"foo\"", "\"bar\""]) kindField).properties :=
  have h := exclusion_correctness_applied ToLowerCamel false ["bar"]
    (kindUnion ["\"foo\"", "\"bar\""]) kindField (tagProp ["\"foo\"", "\"bar\""]) "bar"
    (by decide) rfl (by decide) (by decide)
  ⟨h.1, h.2.1 rfl, h.2.2.1, h.2.2.2⟩

/-- C4 (counterexample): with `removeDiscriminators = false` and the discriminator's own
name in the exclusion list, the rewrite of `kind` is applied and yet the key `kind` is
absent from Properties afterwards. -/
theorem discriminator_removal_flag_counterexample :
    rewriteApplies ToLowerCamel (kindUnion ["\"foo\"", "\"bar\""]) kindField = true ∧
    mapLookup (discriminatorPass ToLowerCamel false ["kind"]
        (kindUnion ["\"foo\"", "\"bar\""]) kindField).properties
      (ToLowerCamel kindField.Name) = none :=
  ⟨by decide, rfl⟩

/-- C4 (amended): after an applied rewrite of `d`, with `removeDiscriminators = true` the
key `camel d.Name` is absent from Properties; with `removeDiscriminators = false`, and
provided no excluded name has the lower-camel form `camel d.Name`, the key is bound to the
original discriminator property with its Enum replaced by the surviving values (no other
field changed). -/
theorem discriminator_removal_flag (camel : String → String) (rm : Bool)
    (skip : List String) (schema : JSONSchemaProps) (d : FieldInfo) (p : JSONSchemaProps)
    (hp : mapLookup schema.properties (camel d.Name) = some p)
    (henum : p.enum ≠ [])
    (hres : ∀ v ∈ p.enum, resolves camel schema.properties v = true) :
    (rm = true →
      mapLookup (discriminatorPass camel rm skip schema d).properties (camel d.Name) = none) ∧
    (rm = false → (∀ s ∈ skip, camel s ≠ camel d.Name) →
      mapLookup (discriminatorPass camel rm skip schema d).properties (camel d.Name) =
        some (p.withEnum (survivors skip p.enum))) := by
  rw [discriminatorPass_applied camel rm skip schema d p hp henum hres]
  constructor
  · intro hrm
    subst hrm
    simp [mapLookup_deleteSkipped, mapLookup_mapDelete]
  · intro hrm hskip
    subst hrm
    have hnot : camel d.Name ∉ skip.map camel := by
      intro hmem
      obtain ⟨s, hs, hsd⟩ := List.mem_map.mp hmem
      exact hskip s hs hsd
    simp [mapLookup_deleteSkipped, mapLookup_mapSet, hnot]

/-- Witness of C4 (amended): the union `kind` over `foo`, `bar` with `bar` excluded. -/
theorem discriminator_removal_flag_witness :
    mapLookup (discriminatorPass ToLowerCamel true ["bar"]
        (kindUnion ["\"foo\"", "\"bar\""]) kindField).properties
      (ToLowerCamel kindField.Name) = none ∧
    mapLookup (discriminatorPass ToLowerCamel false ["bar"]
        (kindUnion ["\"foo\"", "\"bar\""]) kindField).properties
      (ToLowerCamel kindField.Name) = some (tagProp ["\"foo\""]) :=
  ⟨(discriminator_removal_flag ToLowerCamel true ["bar"] (kindUnion ["\"foo\"", "\"bar\""])
      kindField (tagProp ["\"foo\"", "\"bar\""]) rfl (by decide) (by decide)).1 rfl,
   (discriminator_removal_flag ToLowerCamel false ["bar"] (kindUnion ["\"foo\"", "\"bar\""])
      kindField (tagProp ["\"foo\"", "\"bar\""]) rfl (by decide) (by decide)).2 rfl
      (by decide)⟩

/-- C5: for every tree (or absent root), every list of discriminators, every exclusion
list and both values of `removeDiscriminators`, with fuel at least the height of the tree
`AddUnionOneOfConstraints` returns a tree, and applied to that tree with the same
arguments it returns that same tree. -/
theorem rewrite_idempotent (camel : String → String) (fuel : Nat)
    (root : Option JSONSchemaProps) (ds : List FieldInfo) (rm : Bool) (skip : List String)
    (hfuel : ∀ t, root = some t → t.height ≤ fuel) :
    ∃ once, AddUnionOneOfConstraints camel fuel root ds rm skip = some once ∧
      AddUnionOneOfConstraints camel fuel once ds rm skip = some once := by
  cases root with
  | none => exact ⟨none, rfl, rfl⟩
  | some t =>
    obtain ⟨y, hy1, hy2⟩ :=
      walkSchema_mainVisitor_fixed camel ds rm skip fuel t (hfuel t rfl)
    refine ⟨some y, ?_, ?_⟩
    · simp [AddUnionOneOfConstraints, EditJSONSchema, EditSchema, hy1]
    · simp [AddUnionOneOfConstraints, EditJSONSchema, EditSchema, hy2]

/-- Witness of C5: a union nested in a member of a union, two discriminators naming the
same property, the discriminators retained and `bar` excluded. -/
theorem rewrite_idempotent_witness :
    ∃ once,
      AddUnionOneOfConstraints ToLowerCamel 3 (some nestedUnion)
          [kindField, FieldInfo.mk "Kind"] false ["bar"] = some once ∧
      AddUnionOneOfConstraints ToLowerCamel 3 once
          [kindField, FieldInfo.mk "Kind"] false ["bar"] = some once :=
  rewrite_idempotent ToLowerCamel 3 (some nestedUnion) [kindField, FieldInfo.mk "Kind"] false
    ["bar"] (by intro t ht; cases ht; decide)

/-- C6 (counterexample): the enum `["foo","foo"]` repeats a value; the rewrite is applied
and the rewritten OneOf contains two entries whose Required is `["foo"]`, not one. -/
theorem completeness_counterexample :
    rewriteApplies ToLowerCamel (kindUnion ["\"foo\"", "\"foo\""]) kindField = true ∧
    ((discriminatorPass ToLowerCamel true [] (kindUnion ["\"foo\"", "\"foo\""])
        kindField).oneOf.map JSONSchemaProps.required).count ["foo"] = 2 :=
  ⟨by decide, by decide⟩

/-- C6 (amended): after an applied rewrite of `d`, for every enum value `v` that is not
excluded, the rewritten OneOf contains at least one entry whose Required is
`[camel (unquote v)]`, and exactly as many such entries as there are non-excluded enum
values resolving to that property name. -/
theorem completeness_count (camel : String → String) (rm : Bool) (skip : List String)
    (schema : JSONSchemaProps) (d : FieldInfo) (p : JSONSchemaProps) (v : String)
    (hp : mapLookup schema.properties (camel d.Name) = some p)
    (henum : p.enum ≠ [])
    (hres : ∀ w ∈ p.enum, resolves camel schema.properties w = true)
    (hv : v ∈ p.enum) (hvs : trimQuotes v ∉ skip) :
    ((discriminatorPass camel rm skip schema d).oneOf.map JSONSchemaProps.required).count
        [camel (trimQuotes v)] =
      ((p.enum.filter (fun w => decide (trimQuotes w ∉ skip))).map
        (fun w => camel (trimQuotes w))).count (camel (trimQuotes v)) ∧
    1 ≤ ((discriminatorPass camel rm skip schema d).oneOf.map JSONSchemaProps.required).count
        [camel (trimQuotes v)] := by
  rw [discriminatorPass_applied camel rm skip schema d p hp henum hres]
  have hmap : ∀ l : List String,
      ((oneOfFor camel l).map JSONSchemaProps.required).count [camel (trimQuotes v)] =
        (l.map (fun w => camel (trimQuotes w))).count (camel (trimQuotes v)) := by
    intro l
    induction l with
    | nil => simp [oneOfFor]
    | cons w rest ih =>
      have ih' := ih
      simp only [oneOfFor, List.map_map] at ih' ⊢
      simp only [List.map_cons, List.count_cons, ih']
      simp [JSONSchemaProps.requiring, JSONSchemaProps.required]
  have hcount : ((oneOfFor camel (survivors skip p.enum)).map
      JSONSchemaProps.required).count [camel (trimQuotes v)] =
      ((p.enum.filter (fun w => decide (trimQuotes w ∉ skip))).map
        (fun w => camel (trimQuotes w))).count (camel (trimQuotes v)) := hmap _
  simp only [oneOf_withProperties, oneOf_withOneOf]
  refine ⟨hcount, ?_⟩
  rw [hcount]
  apply List.count_pos_iff.mpr
  apply List.mem_map.mpr
  exact ⟨v, by simp [hv, hvs], rfl⟩

/-- Witness of C6 (amended): enum `["foo","bar"]`, value `"foo"`, exclusion `["bar"]`. -/
theorem completeness_count_witness :
    ((discriminatorPass ToLowerCamel true ["bar"] (kindUnion ["\"foo\"", "\"bar\""])
        kindField).oneOf.map JSONSchemaProps.required).count
        [ToLowerCamel (trimQuotes "\"foo\"")] =
      (((tagProp ["\"foo\"", "\"bar\""]).enum.filter
        (fun w => decide (trimQuotes w ∉ ["bar"]))).map
        (fun w => ToLowerCamel (trimQuotes w))).count (ToLowerCamel (trimQuotes "\"foo\"")) ∧
    1 ≤ ((discriminatorPass ToLowerCamel true ["bar"] (kindUnion ["\"foo\"", "\"bar\""])
        kindField).oneOf.map JSONSchemaProps.required).count
        [ToLowerCamel (trimQuotes "\"foo\"")] :=
  completeness_count ToLowerCamel true ["bar"] (kindUnion ["\"foo\"", "\"bar\""]) kindField
    (tagProp ["\"foo\"", "\"bar\""]) "\"foo\"" rfl (by decide) (by decide) (by decide)
    (by decide)

/-- C7: on an applied rewrite of `d`, the scan of the enum returns as rebuilt Enum the
original Enum filtered to the values whose unquoted form is not excluded (a subsequence
of the original), the node's OneOf is the list returned by the scan, it has the length of
the rebuilt Enum, and its `i`-th entry is the schema whose only set field is
`Required = [camel (unquote (rebuiltEnum[i]))]`. -/
theorem enum_oneOf_correspondence (camel : String → String) (rm : Bool)
    (skip : List String) (schema : JSONSchemaProps) (d : FieldInfo) (p : JSONSchemaProps)
    (hp : mapLookup schema.properties (camel d.Name) = some p)
    (henum : p.enum ≠ [])
    (hres : ∀ v ∈ p.enum, resolves camel schema.properties v = true) :
    ∃ rebuiltEnum,
      enumValueLoop camel skip schema.properties p.enum [] [] =
        some ((discriminatorPass camel rm skip schema d).oneOf, rebuiltEnum) ∧
      rebuiltEnum = p.enum.filter (fun v => decide (trimQuotes v ∉ skip)) ∧
      List.Sublist rebuiltEnum p.enum ∧
      (discriminatorPass camel rm skip schema d).oneOf.length = rebuiltEnum.length ∧
      ∀ (i : Nat) (v : String), rebuiltEnum[i]? = some v →
        (discriminatorPass camel rm skip schema d).oneOf[i]? =
          some (JSONSchemaProps.mk "" [] [] [] [camel (trimQuotes v)]) := by
  refine ⟨survivors skip p.enum, ?_, rfl, List.filter_sublist _, ?_, ?_⟩
  · rw [discriminatorPass_applied camel rm skip schema d p hp henum hres,
      enumValueLoop_some camel skip _ _ [] [] hres]
    simp
  · rw [discriminatorPass_applied camel rm skip schema d p hp henum hres]
    simp [oneOfFor]
  · intro i v hv
    rw [discriminatorPass_applied camel rm skip schema d p hp henum hres]
    simp [oneOfFor, hv, JSONSchemaProps.requiring]

/-- Witness of C7: enum `["foo","bar"]` with exclusion `["bar"]` gives the rebuilt Enum
`["foo"]` and OneOf `[{Required: [foo]}]`. -/
theorem enum_oneOf_correspondence_witness :
    enumValueLoop ToLowerCamel ["bar"] (kindUnion ["\"foo\"", "\"bar\""]).properties
        ["\"foo\"", "\"bar\""] [] [] =
      some ([JSONSchemaProps.mk "" [] [] [] ["foo"]], ["\"foo\""]) ∧
    (discriminatorPass ToLowerCamel false ["bar"] (kindUnion ["\"foo\"", "\"bar\""])
        kindField).oneOf = [JSONSchemaProps.mk "" [] [] [] ["foo"]] ∧
    ∃ rebuiltEnum,
      enumValueLoop ToLowerCamel ["bar"] (kindUnion ["\"foo\"", "\"bar\""]).properties
          (tagProp ["\"foo\"", "\"bar\""]).enum [] [] =
        some ((discriminatorPass ToLowerCamel false ["bar"]
          (kindUnion ["\"foo\"", "\"bar\""]) kindField).oneOf, rebuiltEnum) ∧
      rebuiltEnum = (tagProp ["\"foo\"", "\"bar\""]).enum.filter
        (fun v => decide (trimQuotes v ∉ ["bar"])) ∧
      List.Sublist rebuiltEnum (tagProp ["\"foo\"", "\"bar\""]).enum ∧
      (discriminatorPass ToLowerCamel false ["bar"] (kindUnion ["\"foo\"", "\"bar\""])
        kindField).oneOf.length = rebuiltEnum.length ∧
      ∀ (i : Nat) (v : String), rebuiltEnum[i]? = some v →
        (discriminatorPass ToLowerCamel false ["bar"] (kindUnion ["\"foo\"", "\"bar\""])
          kindField).oneOf[i]? =
          some (JSONSchemaProps.mk "" [] [] [] [ToLowerCamel (trimQuotes v)]) :=
  ⟨rfl, rfl,
    enum_oneOf_correspondence ToLowerCamel false ["bar"] (kindUnion ["\"foo\"", "\"bar\""])
      kindField (tagProp ["\"foo\"", "\"bar\""]) rfl (by decide) (by decide)⟩

/-- C8: after the loop over the discriminators `ds`, either some discriminator `ds[i]` had
its rewrite applied (judged on the node as it was after the passes of `ds[0..i)`), no
later one had, and the node's OneOf is the list the scan built for `ds[i]` on that node;
or no discriminator's rewrite was applied and the node, with its OneOf, is the original
one. -/
theorem last_writer_wins (camel : String → String) (rm : Bool) (skip : List String)
    (ds : List FieldInfo) (schema : JSONSchemaProps) :
    (∃ (i : Nat) (d : FieldInfo) (p : JSONSchemaProps) (rebuiltEnum : List String),
      ds[i]? = some d ∧
      rewriteApplies camel (discriminatorLoop camel rm skip (ds.take i) schema) d = true ∧
      (∀ (j : Nat) (d1 : FieldInfo), i < j → ds[j]? = some d1 →
        rewriteApplies camel (discriminatorLoop camel rm skip (ds.take j) schema) d1 = false) ∧
      mapLookup (discriminatorLoop camel rm skip (ds.take i) schema).properties
        (camel d.Name) = some p ∧
      enumValueLoop camel skip (discriminatorLoop camel rm skip (ds.take i) schema).properties
          p.enum [] [] =
        some ((discriminatorLoop camel rm skip ds schema).oneOf, rebuiltEnum)) ∨
    ((∀ (j : Nat) (d1 : FieldInfo), ds[j]? = some d1 →
        rewriteApplies camel (discriminatorLoop camel rm skip (ds.take j) schema) d1 = false) ∧
      discriminatorLoop camel rm skip ds schema = schema) := by
  induction ds using List.reverseRecOn with
  | nil => right; simp [discriminatorLoop]
  | append_singleton init d ih =>
    have htake : ∀ j, j ≤ init.length → (init ++ [d]).take j = init.take j := by
      intro j hj
      rw [List.take_append_of_le_length hj]
    have hget : ∀ j, j < init.length → (init ++ [d])[j]? = init[j]? := by
      intro j hj
      rw [List.getElem?_append_left hj]
    have hlast : (init ++ [d])[init.length]? = some d := by simp
    have hbeyond : ∀ j, init.length < j → (init ++ [d])[j]? = none := by
      intro j hj
      apply List.getElem?_eq_none
      simp; omega
    cases happ : rewriteApplies camel (discriminatorLoop camel rm skip init schema) d with
    | true =>
      left
      obtain ⟨p, hp, hne, hres⟩ := (rewriteApplies_iff camel _ d).mp happ
      refine ⟨init.length, d, p, survivors skip p.enum, hlast, ?_, ?_, ?_, ?_⟩
      · rw [htake _ (le_refl _), List.take_length]; exact happ
      · intro j d1 hj hd1
        rw [hbeyond j hj] at hd1
        cases hd1
      · rw [htake _ (le_refl _), List.take_length]; exact hp
      · rw [htake _ (le_refl _), List.take_length, discriminatorLoop_snoc,
          discriminatorPass_applied camel rm skip _ d p hp hne hres,
          enumValueLoop_some camel skip _ _ [] [] hres]
        simp
    | false =>
      have hsame : discriminatorLoop camel rm skip (init ++ [d]) schema =
          discriminatorLoop camel rm skip init schema := by
        rw [discriminatorLoop_snoc, discriminatorPass_not_applied camel rm skip _ d happ]
      rcases ih with ⟨i, d0, p, ne, hi, happ0, hlater, hp, hloop⟩ | ⟨hnone, hid⟩
      · left
        have hilt : i < init.length := by
          by_contra hcon
          rw [List.getElem?_eq_none (by omega)] at hi
          cases hi
        refine ⟨i, d0, p, ne, ?_, ?_, ?_, ?_, ?_⟩
        · rw [hget i hilt]; exact hi
        · rw [htake i (le_of_lt hilt)]; exact happ0
        · intro j d1 hij hd1
          rcases Nat.lt_trichotomy j init.length with hj | hj | hj
          · rw [hget j hj] at hd1
            rw [htake j (le_of_lt hj)]
            exact hlater j d1 hij hd1
          · subst hj
            rw [hlast] at hd1
            cases hd1
            rw [htake _ (le_refl _), List.take_length]
            exact happ
          · rw [hbeyond j hj] at hd1
            cases hd1
        · rw [htake i (le_of_lt hilt)]; exact hp
        · rw [htake i (le_of_lt hilt), hsame]; exact hloop
      · right
        refine ⟨?_, by rw [hsame, hid]⟩
        intro j d1 hd1
        rcases Nat.lt_trichotomy j init.length with hj | hj | hj
        · rw [hget j hj] at hd1
          rw [htake j (le_of_lt hj)]
          exact hnone j d1 hd1
        · subst hj
          rw [hlast] at hd1
          cases hd1
          rw [htake _ (le_refl _), List.take_length]
          exact happ
        · rw [hbeyond j hj] at hd1
          cases hd1

/-- C9 (counterexample): the node has the properties `foo` and `bar` and no property
`kind`; with `bar` excluded, the pass of the discriminator `kind` (which is skipped)
leaves the key `bar` in Properties. The same holds when the rewrite is abandoned. -/
theorem excluded_deleted_every_pass_counterexample :
    "bar" ∈ mapKeys (discriminatorPass ToLowerCamel false ["bar"] plainNode
      kindField).properties ∧
    "bar" ∈ mapKeys (discriminatorPass ToLowerCamel false ["bar"]
      (kindUnion ["\"foo\"", "\"bar\"", "\"baz\""]) kindField).properties :=
  ⟨by decide, by decide⟩

/-- C9 (amended): after the pass of a discriminator whose rewrite is applied, no key
`camel s` with `s` excluded remains in Properties; the pass of a discriminator that is
skipped or abandoned leaves the node, hence its Properties, unchanged. -/
theorem excluded_deleted_when_applied (camel : String → String) (rm : Bool)
    (skip : List String) (schema : JSONSchemaProps) (d : FieldInfo) :
    (rewriteApplies camel schema d = true →
      ∀ s ∈ skip, camel s ∉ mapKeys (discriminatorPass camel rm skip schema d).properties) ∧
    (rewriteApplies camel schema d = false →
      discriminatorPass camel rm skip schema d = schema) := by
  constructor
  · intro happ s hs
    obtain ⟨p, hp, hne, hres⟩ := (rewriteApplies_iff camel _ d).mp happ
    rw [discriminatorPass_applied camel rm skip schema d p hp hne hres, mem_mapKeys_iff]
    have : camel s ∈ skip.map camel := List.mem_map_of_mem camel hs
    simp [mapLookup_deleteSkipped, this]
  · exact discriminatorPass_not_applied camel rm skip schema d

/-- Witness of C9 (amended): an applied pass with `bar` excluded, and a skipped pass. -/
theorem excluded_deleted_when_applied_witness :
    ToLowerCamel "bar" ∉ mapKeys (discriminatorPass ToLowerCamel false ["bar"]
      (kindUnion ["\"foo\"", "\"bar\""]) kindField).properties ∧
    discriminatorPass ToLowerCamel false ["bar"] plainNode kindField = plainNode :=
  ⟨(excluded_deleted_when_applied ToLowerCamel false ["bar"]
      (kindUnion ["\"foo\"", "\"bar\""]) kindField).1 (by decide) "bar" (by decide),
   (excluded_deleted_when_applied ToLowerCamel false ["bar"] plainNode kindField).2
      (by decide)⟩

/-- C10: `visitorStruct{T}.Visit(n)` has on the node the effect of one call of `T` on
`n`, and returns no visitor when that call returns `stop = true` (whatever next visitor
it returns), the same `visitorStruct{T}` when it returns `stop = false` and a nil next
visitor, and `visitorStruct{next}` when it returns `stop = false` and the next visitor
`next`. -/
theorem walker_dispatch (T : Visitor) (n : Option JSONSchemaProps) :
    ((visitorStruct.mk T).Visit n).1 = (T.run n).1 ∧
    ((T.run n).2.2 = true → ((visitorStruct.mk T).Visit n).2 = none) ∧
    ((T.run n).2.2 = false → (T.run n).2.1 = none →
      ((visitorStruct.mk T).Visit n).2 = some (visitorStruct.mk T)) ∧
    ((T.run n).2.2 = false → ∀ next, (T.run n).2.1 = some next →
      ((visitorStruct.mk T).Visit n).2 = some (visitorStruct.mk next)) := by
  unfold visitorStruct.Visit
  rcases hrun : T.run n with ⟨node, newVisitor, stop⟩
  simp only [hrun]
  cases stop
  · cases newVisitor with
    | none => simp
    | some next => simp
  · simp

/-- Witness of C10: a visitor that stops while returning a next visitor, the union
rewriter (which returns a nil next visitor) and a visitor that returns a next visitor. -/
theorem walker_dispatch_witness :
    ((visitorStruct.mk stoppingVisitor).Visit (some plainNode)).2 = none ∧
    ((visitorStruct.mk (mainVisitor ToLowerCamel [kindField] false [])).Visit
        (some plainNode)).2 =
      some (visitorStruct.mk (mainVisitor ToLowerCamel [kindField] false [])) ∧
    ((visitorStruct.mk delegatingVisitor).Visit (some plainNode)).2 =
      some (visitorStruct.mk (mainVisitor ToLowerCamel [kindField] false [])) :=
  ⟨(walker_dispatch stoppingVisitor (some plainNode)).2.1 rfl,
   (walker_dispatch (mainVisitor ToLowerCamel [kindField] false [])
      (some plainNode)).2.2.1 rfl rfl,
   (walker_dispatch delegatingVisitor (some plainNode)).2.2.2 rfl _ rfl⟩

/-- C11: on every input node (nil or not, of any type, whatever happens to its
discriminators) the visitor built by `AddUnionOneOfConstraints` returns a nil next visitor
and `stop = false`; `Visit` therefore returns the same `visitorStruct`; so the walk of a
node is the node as rewritten by the visitor, with every property that remains replaced by
its own walk with the same visitor, one level of fuel lower; and with fuel at least the
height of the tree the walk returns. -/
theorem rewriter_never_stops (camel : String → String) (ds : List FieldInfo) (rm : Bool)
    (skip : List String) :
    (∀ node, ((mainVisitor camel ds rm skip).run node).2 = (none, false)) ∧
    (∀ node, ((visitorStruct.mk (mainVisitor camel ds rm skip)).Visit node).2 =
      some (visitorStruct.mk (mainVisitor camel ds rm skip))) ∧
    (∀ fuel x, ∃ node1,
      ((mainVisitor camel ds rm skip).run (some x)).1 = some node1 ∧
      walkSchema (fuel + 1) (visitorStruct.mk (mainVisitor camel ds rm skip)) x =
        (walkMap (walkSchema fuel (visitorStruct.mk (mainVisitor camel ds rm skip)))
          node1.properties).map node1.withProperties) ∧
    (∀ fuel x, JSONSchemaProps.height x ≤ fuel →
      (walkSchema fuel (visitorStruct.mk (mainVisitor camel ds rm skip)) x).isSome = true) := by
  refine ⟨fun node => rfl, fun node => rfl, ?_, ?_⟩
  · intro fuel x
    refine ⟨rewriteNode camel ds rm skip x, ?_, walkSchema_mainVisitor_succ camel ds rm skip fuel x⟩
    rw [mainVisitor_run, mainVisitorEffect_some]
  · intro fuel x hx
    obtain ⟨y, hy, _⟩ := walkSchema_mainVisitor_fixed camel ds rm skip fuel x hx
    rw [hy]; rfl

/-- C12: a discriminator whose property is not a key of the node's Properties, or whose
property has an empty Enum (on the node as given to the visitor, or on the node as it is
when the discriminator is processed), leaves the node unchanged at its turn, and the
result of the loop, and of the visitor, is the result for the list without it. -/
theorem absent_discriminator_skipped (camel : String → String) (rm : Bool)
    (skip : List String) (pre post : List FieldInfo) (d : FieldInfo) (x : JSONSchemaProps)
    (habsent :
      (mapLookup x.properties (camel d.Name) = none ∨
        ∃ p, mapLookup x.properties (camel d.Name) = some p ∧ p.enum = []) ∨
      (mapLookup (discriminatorLoop camel rm skip pre x).properties (camel d.Name) = none ∨
        ∃ p, mapLookup (discriminatorLoop camel rm skip pre x).properties (camel d.Name) =
          some p ∧ p.enum = [])) :
    discriminatorPass camel rm skip (discriminatorLoop camel rm skip pre x) d =
      discriminatorLoop camel rm skip pre x ∧
    discriminatorLoop camel rm skip (pre ++ d :: post) x =
      discriminatorLoop camel rm skip (pre ++ post) x ∧
    mainVisitorEffect camel (pre ++ d :: post) rm skip (some x) =
      mainVisitorEffect camel (pre ++ post) rm skip (some x) := by
  have hinert : inertKey (discriminatorLoop camel rm skip pre x) (camel d.Name) := by
    rcases habsent with h | h
    · exact inertKey_discriminatorLoop camel rm skip pre _ x h
    · exact h
  have hpass : discriminatorPass camel rm skip (discriminatorLoop camel rm skip pre x) d =
      discriminatorLoop camel rm skip pre x :=
    discriminatorPass_not_applied camel rm skip _ d
      (rewriteApplies_false_of_inert camel _ d hinert)
  have hloop : discriminatorLoop camel rm skip (pre ++ d :: post) x =
      discriminatorLoop camel rm skip (pre ++ post) x := by
    have hsplit : pre ++ d :: post = (pre ++ [d]) ++ post := by simp
    rw [hsplit, discriminatorLoop_append, discriminatorLoop_snoc, discriminatorLoop_append,
      hpass]
  refine ⟨hpass, hloop, ?_⟩
  rw [mainVisitorEffect_some, mainVisitorEffect_some]
  unfold rewriteNode
  rw [hloop]

/-- Witness of C12: the discriminator `mode` is absent from the union `kind`; it is
processed after `kind` and before a second pass of `kind`. -/
theorem absent_discriminator_skipped_witness :
    discriminatorLoop ToLowerCamel false ["bar"]
        ([kindField] ++ FieldInfo.mk "mode" :: [kindField])
        (kindUnion ["\"foo\"", "\"bar\""]) =
      discriminatorLoop ToLowerCamel false ["bar"] ([kindField] ++ [kindField])
        (kindUnion ["\"foo\"", "\"bar\""]) ∧
    mainVisitorEffect ToLowerCamel ([kindField] ++ FieldInfo.mk "mode" :: [kindField]) false
        ["bar"] (some (kindUnion ["\"foo\"", "\"bar\""])) =
      mainVisitorEffect ToLowerCamel ([kindField] ++ [kindField]) false ["bar"]
        (some (kindUnion ["\"foo\"", "\"bar\""])) :=
  (absent_discriminator_skipped ToLowerCamel false ["bar"] [kindField] [kindField]
    (FieldInfo.mk "mode") (kindUnion ["\"foo\"", "\"bar\""]) (Or.inl (Or.inl rfl))).2

/-- C13: on a nil node, on a node whose Type is not "object" and on a node with empty
Properties the rewriter's visitor returns the node exactly as it was (with a nil next
visitor and `stop = false`), for every list of discriminators, every exclusion list and
both values of `removeDiscriminators`. -/
theorem non_candidate_untouched (camel : String → String) (ds : List FieldInfo) (rm : Bool)
    (skip : List String) (node : Option JSONSchemaProps)
    (h : node = none ∨
      ∃ x, node = some x ∧ (x.type ≠ "object" ∨ x.properties.length = 0)) :
    (mainVisitor camel ds rm skip).run node = (node, none, false) := by
  rw [mainVisitor_run]
  rcases h with h | ⟨x, hx, h⟩
  · subst h; rfl
  · subst hx
    rcases h with h | h
    · simp [mainVisitorEffect, h]
    · simp [mainVisitorEffect, h]

/-- Witness of C13: a node of type string with a property `kind` that has an enum. -/
theorem non_candidate_untouched_witness :
    (mainVisitor ToLowerCamel [kindField] true ["foo"]).run (some stringNode) =
      (some stringNode, none, false) :=
  non_candidate_untouched ToLowerCamel [kindField] true ["foo"] (some stringNode)
    (Or.inr ⟨stringNode, rfl, Or.inl (by decide)⟩)

/-- C14: the node returned by the rewriter's visitor has no key that the original node
lacks; a key that disappeared is the property name of a discriminator whose rewrite was
applied (with `removeDiscriminators` set) or the lower-camel form of an excluded name; a
property that remains has its previous value, unless it is the property of a
discriminator whose rewrite was applied, of which only the Enum may differ; and the Type,
Enum and Required of the node are unchanged. -/
theorem rewrite_frame (camel : String → String) (ds : List FieldInfo) (rm : Bool)
    (skip : List String) (x : JSONSchemaProps) :
    ∃ y, (mainVisitor camel ds rm skip).run (some x) = (some y, none, false) ∧
      (∀ k ∈ mapKeys y.properties, k ∈ mapKeys x.properties) ∧
      (∀ k ∈ mapKeys x.properties, k ∉ mapKeys y.properties →
        (rm = true ∧ rewrittenAt camel rm skip ds x k) ∨ ∃ s ∈ skip, k = camel s) ∧
      (∀ k p q, mapLookup x.properties k = some p → mapLookup y.properties k = some q →
        q = p ∨ (rm = false ∧ rewrittenAt camel rm skip ds x k ∧ ∃ e, q = p.withEnum e)) ∧
      y.type = x.type ∧ y.enum = x.enum ∧ y.required = x.required := by
  refine ⟨rewriteNode camel ds rm skip x, ?_, ?_⟩
  · rw [mainVisitor_run, mainVisitorEffect_some]
  · by_cases hguard : x.type ≠ "object" ∨ x.properties.length = 0
    · have hy : rewriteNode camel ds rm skip x = x := by
        unfold rewriteNode
        rcases hguard with h | h
        · simp [h]
        · simp [h]
      rw [hy]
      refine ⟨fun k hk => hk, fun k hk hnk => absurd hk hnk, ?_, rfl, rfl, rfl⟩
      intro k p q hp hq
      rw [hp] at hq
      cases hq
      exact Or.inl rfl
    · have hy : rewriteNode camel ds rm skip x = discriminatorLoop camel rm skip ds x := by
        unfold rewriteNode
        have h1 : ¬ x.type ≠ "object" := fun h => hguard (Or.inl h)
        have h2 : ¬ x.properties.length = 0 := fun h => hguard (Or.inr h)
        simp only [h1, h2, if_false]
      rw [hy]
      refine ⟨?_, ?_, ?_, (discriminatorLoop_type_enum camel rm skip ds x).1,
        (discriminatorLoop_type_enum camel rm skip ds x).2,
        discriminatorLoop_required camel rm skip ds x⟩
      · intro k hk
        rw [mem_mapKeys_iff] at hk ⊢
        cases hx : mapLookup x.properties k with
        | none =>
          rw [(discriminatorLoop_frame camel rm skip ds x k).1 hx] at hk
          cases hk
        | some p => rfl
      · intro k hk hnk
        rw [mem_mapKeys_iff] at hk hnk
        have hx : mapLookup x.properties k ≠ none := by
          intro h; rw [h] at hk; cases hk
        have hy2 : mapLookup (discriminatorLoop camel rm skip ds x).properties k = none := by
          cases h : mapLookup (discriminatorLoop camel rm skip ds x).properties k with
          | none => rfl
          | some q => rw [h] at hnk; exact absurd rfl hnk
        rcases (discriminatorLoop_frame camel rm skip ds x k).2.1 hx hy2 with h | h
        · exact Or.inl h
        · obtain ⟨s, hs, hsk⟩ := List.mem_map.mp h
          exact Or.inr ⟨s, hs, hsk.symm⟩
      · intro k p q hp hq
        exact (discriminatorLoop_frame camel rm skip ds x k).2.2 p q hp hq

/-- C15: after an applied rewrite of `d`, if (i) an enum value of `d` whose lower-camel
form is that of an excluded name is itself, unquoted, that excluded name, and (ii) with
`removeDiscriminators` set no enum value of `d` resolves to the property of `d`, then
every name required by an entry of the node's OneOf is a key of the node's Properties. -/
theorem oneOf_requires_existing (camel : String → String) (rm : Bool) (skip : List String)
    (x : JSONSchemaProps) (d : FieldInfo) (p : JSONSchemaProps)
    (hp : mapLookup x.properties (camel d.Name) = some p)
    (henum : p.enum ≠ [])
    (hres : ∀ v ∈ p.enum, resolves camel x.properties v = true)
    (hi : ∀ v ∈ p.enum, ∀ s ∈ skip, camel (trimQuotes v) = camel s → trimQuotes v = s)
    (hii : rm = true → ∀ v ∈ p.enum, camel (trimQuotes v) ≠ camel d.Name) :
    ∀ e ∈ (discriminatorPass camel rm skip x d).oneOf, ∀ name ∈ e.required,
      name ∈ mapKeys (discriminatorPass camel rm skip x d).properties := by
  rw [discriminatorPass_applied camel rm skip x d p hp henum hres]
  intro e he name hname
  simp only [oneOf_withProperties, oneOf_withOneOf, oneOfFor, List.mem_map] at he
  obtain ⟨v, hv, rfl⟩ := he
  obtain ⟨hve, hvs⟩ := (mem_survivors skip p.enum v).mp hv
  have hn : name = camel (trimQuotes v) := by
    simpa [JSONSchemaProps.requiring, JSONSchemaProps.required] using hname
  subst hn
  have hnot : camel (trimQuotes v) ∉ skip.map camel := by
    intro hmem
    obtain ⟨s, hs, hsv⟩ := List.mem_map.mp hmem
    exact hvs ((hi v hve s hs hsv.symm) ▸ hs)
  have hex : (mapLookup x.properties (camel (trimQuotes v))).isSome = true := hres v hve
  rw [mem_mapKeys_iff]
  simp only [properties_withProperties, properties_withOneOf, mapLookup_deleteSkipped,
    if_neg hnot]
  cases rm
  · simp only [Bool.false_eq_true, if_false, mapLookup_mapSet]
    by_cases h2 : camel (trimQuotes v) = camel d.Name
    · rw [if_pos h2]; rfl
    · rw [if_neg h2]; exact hex
  · simp only [if_true, mapLookup_mapDelete]
    rw [if_neg (hii rfl v hve)]
    exact hex

/-- Witness of C15: the union `kind` over `foo`, `bar`, with `bar` excluded and the
discriminator removed: the OneOf requires `foo` only, and `foo` is still a key. -/
theorem oneOf_requires_existing_witness :
    (discriminatorPass ToLowerCamel true ["bar"] (kindUnion ["\"foo\"", "\"bar\""])
        kindField).oneOf = [JSONSchemaProps.requiring "foo"] ∧
    "foo" ∈ mapKeys (discriminatorPass ToLowerCamel true ["bar"]
        (kindUnion ["\"foo\"", "\"bar\""]) kindField).properties :=
  ⟨rfl,
   oneOf_requires_existing ToLowerCamel true ["bar"] (kindUnion ["\"foo\"", "\"bar\""])
    kindField (tagProp ["\"foo\"", "\"bar\""]) rfl (by decide) (by decide) (by decide)
    (fun _ => by decide) (JSONSchemaProps.requiring "foo") (List.mem_singleton.mpr rfl)
    "foo" (by decide)⟩

/-- C16: if the rewrite of `d1` is applied, `d2` names another property, that property is
still present after the pass of `d1`, and one of its enum values has the lower-camel form
of an excluded name, then the rewrite of `d2` is abandoned: the loop over `[d1, d2]`
returns the node as it was after the pass of `d1`, the property of `d2` is the original
one with that enum value, and the node's OneOf is the list built for `d1`. Moreover, for
any single discriminator, an excluded enum value whose property is missing makes the
pass return the node unchanged. -/
theorem shared_excluded_member_abandons (camel : String → String) (rm : Bool)
    (skip : List String) (x : JSONSchemaProps) (d1 d2 : FieldInfo) (p1 p2 : JSONSchemaProps)
    (v s : String)
    (hp1 : mapLookup x.properties (camel d1.Name) = some p1)
    (henum1 : p1.enum ≠ [])
    (hres1 : ∀ w ∈ p1.enum, resolves camel x.properties w = true)
    (hdist : camel d1.Name ≠ camel d2.Name)
    (hp2 : mapLookup (discriminatorPass camel rm skip x d1).properties (camel d2.Name) =
      some p2)
    (hv : v ∈ p2.enum) (hs : s ∈ skip) (hvs : camel (trimQuotes v) = camel s) :
    discriminatorLoop camel rm skip [d1, d2] x = discriminatorPass camel rm skip x d1 ∧
    mapLookup (discriminatorLoop camel rm skip [d1, d2] x).properties (camel d2.Name) =
      some p2 ∧
    mapLookup x.properties (camel d2.Name) = some p2 ∧
    (discriminatorLoop camel rm skip [d1, d2] x).oneOf =
      (p1.enum.filter (fun w => decide (trimQuotes w ∉ skip))).map
        (fun w => JSONSchemaProps.requiring (camel (trimQuotes w))) ∧
    (∀ (y : JSONSchemaProps) (d : FieldInfo) (p : JSONSchemaProps) (w : String),
      mapLookup y.properties (camel d.Name) = some p → w ∈ p.enum → trimQuotes w ∈ skip →
      mapLookup y.properties (camel (trimQuotes w)) = none →
        discriminatorPass camel rm skip y d = y) := by
  have hgone : mapLookup (discriminatorPass camel rm skip x d1).properties
      (camel (trimQuotes v)) = none := by
    rw [discriminatorPass_applied camel rm skip x d1 p1 hp1 henum1 hres1, hvs]
    simp only [properties_withProperties, mapLookup_deleteSkipped]
    rw [if_pos (List.mem_map_of_mem camel hs)]
  have hnot : rewriteApplies camel (discriminatorPass camel rm skip x d1) d2 = false := by
    cases h : rewriteApplies camel (discriminatorPass camel rm skip x d1) d2 with
    | false => rfl
    | true =>
      exfalso
      obtain ⟨q, hq, _, hres⟩ := (rewriteApplies_iff camel _ d2).mp h
      rw [hp2] at hq
      cases hq
      have := hres v hv
      simp [resolves, hgone] at this
  have hloop : discriminatorLoop camel rm skip [d1, d2] x =
      discriminatorPass camel rm skip x d1 := by
    have : discriminatorLoop camel rm skip [d1, d2] x =
        discriminatorPass camel rm skip (discriminatorPass camel rm skip x d1) d2 := rfl
    rw [this, discriminatorPass_not_applied camel rm skip _ d2 hnot]
  have horig : mapLookup x.properties (camel d2.Name) = some p2 := by
    have h := hp2
    rw [discriminatorPass_applied camel rm skip x d1 p1 hp1 henum1 hres1] at h
    simp only [properties_withProperties, properties_withOneOf, mapLookup_deleteSkipped] at h
    have hne : ¬ camel d2.Name = camel d1.Name := fun h => hdist h.symm
    split at h
    · cases h
    · cases rm
      · simpa [mapLookup_mapSet, hne] using h
      · simpa [mapLookup_mapDelete, hne] using h
  refine ⟨hloop, by rw [hloop]; exact hp2, horig, ?_, ?_⟩
  · rw [hloop, discriminatorPass_applied camel rm skip x d1 p1 hp1 henum1 hres1]
    simp [oneOfFor, survivors]
  · intro y d p w hp hw _ hmiss
    apply discriminatorPass_not_applied
    cases h : rewriteApplies camel y d with
    | false => rfl
    | true =>
      exfalso
      obtain ⟨q, hq, _, hres⟩ := (rewriteApplies_iff camel _ d).mp h
      rw [hp] at hq
      cases hq
      have := hres w hw
      simp [resolves, hmiss] at this

/-- Witness of C16: discriminators `kind` over `foo`, `bar` and `mode` over `bar`, `baz`,
with `bar` excluded. -/
theorem shared_excluded_member_abandons_witness :
    discriminatorLoop ToLowerCamel false ["bar"] [kindField, FieldInfo.mk "mode"] twoTags =
      discriminatorPass ToLowerCamel false ["bar"] twoTags kindField ∧
    mapLookup (discriminatorLoop ToLowerCamel false ["bar"] [kindField, FieldInfo.mk "mode"]
      twoTags).properties "mode" = some (tagProp ["\"bar\"", "\"baz\""]) ∧
    (discriminatorLoop ToLowerCamel false ["bar"] [kindField, FieldInfo.mk "mode"]
      twoTags).oneOf = [JSONSchemaProps.requiring "foo"] :=
  have h := shared_excluded_member_abandons ToLowerCamel false ["bar"] twoTags kindField
    (FieldInfo.mk "mode") (tagProp ["\"foo\"", "\"bar\""]) (tagProp ["\"bar\"", "\"baz\""])
    "\"bar\"" "bar" rfl (by decide) (by decide) (by decide) rfl (by decide) (by decide)
    (by decide)
  ⟨h.1, h.2.1, h.2.2.2.1⟩

/-- C17: if the property of `d` exists with a non-empty Enum, every enum value resolves
and every unquoted enum value is excluded, the rewrite is applied: the node's OneOf
becomes the empty list, the property of `d`, if still present, has an empty Enum (and it
is present, as the original property with an empty Enum, when the discriminators are
retained and `d` is not itself excluded), and no lower-camel form of an excluded name
remains a key of Properties. -/
theorem fully_excluded_union (camel : String → String) (rm : Bool) (skip : List String)
    (x : JSONSchemaProps) (d : FieldInfo) (p : JSONSchemaProps)
    (hp : mapLookup x.properties (camel d.Name) = some p)
    (henum : p.enum ≠ [])
    (hres : ∀ v ∈ p.enum, resolves camel x.properties v = true)
    (hall : ∀ v ∈ p.enum, trimQuotes v ∈ skip) :
    rewriteApplies camel x d = true ∧
    (discriminatorPass camel rm skip x d).oneOf = [] ∧
    (∀ q, mapLookup (discriminatorPass camel rm skip x d).properties (camel d.Name) = some q →
      q.enum = []) ∧
    (rm = false → (∀ s ∈ skip, camel s ≠ camel d.Name) →
      mapLookup (discriminatorPass camel rm skip x d).properties (camel d.Name) =
        some (p.withEnum [])) ∧
    (∀ s ∈ skip, camel s ∉ mapKeys (discriminatorPass camel rm skip x d).properties) := by
  have hsurv : survivors skip p.enum = [] := by
    unfold survivors
    rw [List.filter_eq_nil_iff]
    intro v hv
    simp [hall v hv]
  have hpass := discriminatorPass_applied camel rm skip x d p hp henum hres
  rw [hsurv] at hpass
  refine ⟨(rewriteApplies_iff camel x d).mpr ⟨p, hp, henum, hres⟩, ?_, ?_, ?_, ?_⟩
  · rw [hpass]; simp [oneOfFor]
  · intro q hq
    rw [hpass] at hq
    simp only [properties_withProperties, properties_withOneOf, mapLookup_deleteSkipped] at hq
    split at hq
    · cases hq
    · cases rm
      · simp only [Bool.false_eq_true, if_false, mapLookup_mapSet, if_true] at hq
        cases hq
        simp
      · simp [mapLookup_mapDelete] at hq
  · intro hrm hskip
    subst hrm
    have hnot : camel d.Name ∉ skip.map camel := by
      intro hmem
      obtain ⟨s, hs, hsd⟩ := List.mem_map.mp hmem
      exact hskip s hs hsd
    rw [hpass]
    simp [mapLookup_deleteSkipped, mapLookup_mapSet, hnot]
  · intro s hs
    rw [hpass, mem_mapKeys_iff]
    simp [mapLookup_deleteSkipped, List.mem_map_of_mem camel hs]

/-- Witness of C17: the union `kind` over `foo`, `bar` with both members excluded. -/
theorem fully_excluded_union_witness :
    rewriteApplies ToLowerCamel (kindUnion ["\"foo\"", "\"bar\""]) kindField = true ∧
    (discriminatorPass ToLowerCamel false ["foo", "bar"] (kindUnion ["\"foo\"", "\"bar\""])
      kindField).oneOf = [] ∧
    mapLookup (discriminatorPass ToLowerCamel false ["foo", "bar"]
      (kindUnion ["\"foo\"", "\"bar\""]) kindField).properties (ToLowerCamel kindField.Name) =
      some (tagProp []) ∧
    mapKeys (discriminatorPass ToLowerCamel false ["foo", "bar"]
      (kindUnion ["\"foo\"", "\"bar\""]) kindField).properties = ["kind"] :=
  have h := fully_excluded_union ToLowerCamel false ["foo", "bar"]
    (kindUnion ["\"foo\"", "\"bar\""]) kindField (tagProp ["\"foo\"", "\"bar\""]) rfl
    (by decide) (by decide) (by decide)
  ⟨h.1, h.2.1, h.2.2.2.1 rfl (by decide), by decide⟩

/-- C18: the verdict branch of `Test_API_200` increments `passTests` exactly when the
validator succeeded and the expected outcome is "PASS", or the validator failed with a
message, the expected outcome is neither "PASS" nor empty, and it occurs in the message as
a substring; otherwise the counter is unchanged and `t.Errorf` is called. In particular an
empty expected outcome never counts as passed, nor does the expected outcome "PASS" on a
validation failure, whatever the message. -/
theorem harness_verdict (passTests : Nat) (r : Option String) (e : String) :
    ((Test_API_200_verdict passTests r e).1 = passTests + 1 ↔
      (r = none ∧ e = "PASS") ∨
      (∃ m, r = some m ∧ e ≠ "PASS" ∧ e ≠ "" ∧ ∃ a b, m.data = a ++ e.data ++ b)) ∧
    ((Test_API_200_verdict passTests r e) = (passTests + 1, false) ∨
      (Test_API_200_verdict passTests r e) = (passTests, true)) ∧
    (Test_API_200_verdict passTests r "").1 = passTests ∧
    (∀ m, (Test_API_200_verdict passTests (some m) "PASS").1 = passTests) := by
  refine ⟨?_, ?_, ?_, ?_⟩
  · cases r with
    | none =>
      unfold Test_API_200_verdict
      by_cases h1 : e = ""
      · subst h1; simp
      · by_cases h2 : e = "PASS"
        · simp [h2]
        · simp [h1, h2]
    | some m =>
      unfold Test_API_200_verdict
      by_cases h2 : e = "PASS"
      · subst h2; simp
      · by_cases h1 : e = ""
        · subst h1; simp
        · have hc := containsChars_iff m.data e.data
          by_cases h3 : stringsContains m e = true
          · have h3' := hc.mp h3
            simp only [List.append_assoc] at h3'
            simp [h1, h2, h3, h3']
          · have h3' : ¬ ∃ a b, m.data = a ++ e.data ++ b := fun h => h3 (hc.mpr h)
            simp only [List.append_assoc] at h3'
            simp [h1, h2, h3, h3']
  · cases r with
    | none =>
      unfold Test_API_200_verdict
      by_cases h1 : e = ""
      · simp [h1]
      · by_cases h2 : e = "PASS"
        · simp [h2]
        · simp [h1, h2]
    | some m =>
      unfold Test_API_200_verdict
      by_cases h2 : e = "PASS"
      · simp [h2]
      · by_cases h1 : e = ""
        · simp [h1]
        · by_cases h3 : stringsContains m e = true
          · simp [h1, h2, h3]
          · simp [h1, h2, h3]
  · cases r <;> simp [Test_API_200_verdict]
  · intro m; simp [Test_API_200_verdict]

/-- Witness of C18: an expected failure whose message contains the expected text counts
as passed; an expected "PASS" does not, although the message is the text PASS. -/
theorem harness_verdict_witness :
    (Test_API_200_verdict 3 (some "doc is invalid: missing name") "invalid").1 = 4 ∧
    (Test_API_200_verdict 3 (some "PASS") "PASS").1 = 3 :=
  ⟨(harness_verdict 3 (some "doc is invalid: missing name") "invalid").1.mpr
      (Or.inr ⟨"doc is invalid: missing name", rfl, by decide, by decide,
        "doc is ".data, ": missing name".data, by decide⟩),
   (harness_verdict 3 none "PASS").2.2.2 "PASS"⟩

end Genutils
